import Mathlib

/-!
# A formal model of the rust-trading-engine matching core

This file gives a shallow embedding, in Lean 4, of the limit-order matching
core found in `src/match_engine/orderbook.rs`, and proves the behavioural
properties claimed of it.

Modelling conventions:

* Rust `f64` order sizes and `Decimal` prices are both modelled as `ℚ`
  (exact arithmetic).  Every arithmetic step the matching loop performs is of
  the shape `x - min x y`, so the loop's control flow is identical under
  exact arithmetic.
* The two `HashMap<Decimal, Limit>` side maps are modelled as `List Limit`
  in arbitrary (hash) order; the key of a binding is the limit's `price`
  field, which is what the Rust code inserts it under.  The fill path never
  relies on that order: it explicitly sorts the candidate prices, exactly as
  `ask_limits` / `bid_limits` call `sort_by` on the collected values.
* `LinkedList<Order>` inside a level is a Lean `List Order`, front = head.
* In-place mutation (`&mut`) becomes explicit state passing: an operation on
  a limit returns the updated limit, the updated incoming order, and the
  accumulated executions.
-/

namespace TradingEngine

/-- `enum BidOrAsk { Bid, Ask }`. -/
inductive BidOrAsk where
  | Bid
  | Ask
deriving DecidableEq, Repr

/-- `struct Order { id: u64, size: f64, bid_or_ask: BidOrAsk }`. -/
structure Order where
  id : Nat
  size : ℚ
  bid_or_ask : BidOrAsk
deriving DecidableEq, Repr

/-- `Order::is_filled`: `self.size == 0.0`. -/
def Order.is_filled (o : Order) : Bool :=
  o.size == 0

/-- `struct Execution { id: u64, size: f64, bid_or_ask: BidOrAsk, price: Decimal }`. -/
structure Execution where
  id : Nat
  size : ℚ
  bid_or_ask : BidOrAsk
  price : ℚ
deriving DecidableEq, Repr

/-- `Execution::new(order, size, price)`. -/
def Execution.new (order : Order) (size : ℚ) (price : ℚ) : Execution :=
  { id := order.id, size := size, bid_or_ask := order.bid_or_ask, price := price }

/-- `struct Limit { price: Decimal, orders: LinkedList<Order> }`. -/
structure Limit where
  price : ℚ
  orders : List Order
deriving DecidableEq, Repr

/-- `Limit::new(price)`. -/
def Limit.new (price : ℚ) : Limit :=
  { price := price, orders := [] }

/-- `Limit::total_volume`. -/
def Limit.total_volume (l : Limit) : ℚ :=
  (l.orders.map Order.size).sum

/-- `Limit::add_order`: `self.orders.push_back(order)`. -/
def Limit.add_order (l : Limit) (o : Order) : Limit :=
  { l with orders := l.orders ++ [o] }

/-- The `shares` computation of `Limit::fill_order`:
`if market_order.size >= limit_order.size { limit_order.size } else { market_order.size }`. -/
def shares (market_order limit_order : Order) : ℚ :=
  if market_order.size ≥ limit_order.size then limit_order.size else market_order.size

/-- The `while` loop of `Limit::fill_order`, acting on the order queue of a
level with price `price`.  Each iteration of the Rust loop takes the front
resident order, trades `shares` against it, emits the two executions, and
pops the front exactly when it is now filled.  If instead the front survives,
then `shares` was the whole incoming size, so the incoming order is now
filled and the loop's guard stops it; the recursion therefore returns there
(`fillLoop_progress` below proves this exhaustiveness).  Returns the new
queue, the updated incoming order, and the executions, in source order. -/
def fillLoop (price : ℚ) : List Order → Order → List Order × Order × List Execution
  | [], market_order => ([], market_order, [])
  | front :: rest, market_order =>
    if market_order.is_filled then (front :: rest, market_order, [])
    else
      let s := shares market_order front
      let e1 := Execution.new market_order s price
      let e2 := Execution.new front s price
      let market' : Order := { market_order with size := market_order.size - s }
      let front' : Order := { front with size := front.size - s }
      if front'.is_filled then
        let r := fillLoop price rest market'
        (r.1, r.2.1, e1 :: e2 :: r.2.2)
      else
        (front' :: rest, market', [e1, e2])

/-- `Limit::fill_order(market_order)`. -/
def Limit.fill_order (l : Limit) (market_order : Order) : Limit × Order × List Execution :=
  let r := fillLoop l.price l.orders market_order
  ({ l with orders := r.1 }, r.2.1, r.2.2)

/-- `struct OrderBook { asks: HashMap<Decimal, Limit>, bids: HashMap<Decimal, Limit> }`:
each side map is a list of levels in arbitrary map order, keyed by `price`. -/
structure OrderBook where
  asks : List Limit
  bids : List Limit
deriving DecidableEq, Repr

/-- `OrderBook::new()`. -/
def OrderBook.new : OrderBook :=
  { asks := [], bids := [] }

/-- The `get_mut`-or-`insert` pattern of `OrderBook::add_limit_order` on one
side map: append to the level keyed at `price` if present, otherwise insert
a fresh level holding just this order. -/
def insertOrder : List Limit → ℚ → Order → List Limit
  | [], price, o => [(Limit.new price).add_order o]
  | l :: ls, price, o =>
    if l.price = price then l.add_order o :: ls
    else l :: insertOrder ls price o

/-- `OrderBook::add_limit_order(price, order)`. -/
def OrderBook.add_limit_order (b : OrderBook) (price : ℚ) (o : Order) : OrderBook :=
  match o.bid_or_ask with
  | .Bid => { b with bids := insertOrder b.bids price o }
  | .Ask => { b with asks := insertOrder b.asks price o }

/-- The candidate prices of `OrderBook::ask_limits(limit_price)`: filter the
ask levels by `limit.price <= limit_price` when a limit price is given, then
sort ascending by price (`a.price.cmp(&b.price)`). -/
def askLimitPrices (asks : List Limit) (limit_price : Option ℚ) : List ℚ :=
  let candidates := match limit_price with
    | some lp => asks.filter fun (l : Limit) => decide (l.price ≤ lp)
    | none => asks
  List.insertionSort (· ≤ ·) (candidates.map Limit.price)

/-- The candidate prices of `OrderBook::bid_limits(limit_price)`: filter the
bid levels by `limit.price >= limit_price` when a limit price is given, then
sort descending by price (`b.price.cmp(&a.price)`). -/
def bidLimitPrices (bids : List Limit) (limit_price : Option ℚ) : List ℚ :=
  let candidates := match limit_price with
    | some lp => bids.filter fun (l : Limit) => decide (lp ≤ l.price)
    | none => bids
  List.insertionSort (· ≥ ·) (candidates.map Limit.price)

/-- Fill the incoming order against the level keyed at price `p` of a side
map (the action of one `limit_order.fill_order(order)` call through the
`&mut Limit` reference into the map). -/
def fillAt : List Limit → ℚ → Order → List Limit × Order × List Execution
  | [], _, o => ([], o, [])
  | l :: ls, p, o =>
    if l.price = p then
      let r := l.fill_order o
      (r.1 :: ls, r.2.1, r.2.2)
    else
      let r := fillAt ls p o
      (l :: r.1, r.2.1, r.2.2)

/-- The `for limit_order in limits` loop of `OrderBook::fill_order`: walk the
sorted candidate prices in order, fill against each level, and break as soon
as the incoming order reports filled. -/
def walkPrices : List Limit → Order → List ℚ → List Limit × Order × List Execution
  | limits, o, [] => (limits, o, [])
  | limits, o, p :: ps =>
    let r := fillAt limits p o
    if r.2.1.is_filled then (r.1, r.2.1, r.2.2)
    else
      let r2 := walkPrices r.1 r.2.1 ps
      (r2.1, r2.2.1, r.2.2 ++ r2.2.2)

/-- `OrderBook::fill_order(order, limit_price)`. -/
def OrderBook.fill_order (b : OrderBook) (o : Order) (limit_price : Option ℚ) :
    OrderBook × Order × List Execution :=
  match o.bid_or_ask with
  | .Bid =>
    let r := walkPrices b.asks o (askLimitPrices b.asks limit_price)
    ({ b with asks := r.1 }, r.2.1, r.2.2)
  | .Ask =>
    let r := walkPrices b.bids o (bidLimitPrices b.bids limit_price)
    ({ b with bids := r.1 }, r.2.1, r.2.2)

/-- `OrderBook::fill_market_order(order)`: `fill_order(order, None)`. -/
def OrderBook.fill_market_order (b : OrderBook) (o : Order) :
    OrderBook × Order × List Execution :=
  b.fill_order o none

/-- `OrderBook::fill_limit_order(order, price)`: `fill_order(order, Some(price))`. -/
def OrderBook.fill_limit_order (b : OrderBook) (o : Order) (price : ℚ) :
    OrderBook × Order × List Execution :=
  b.fill_order o (some price)

/-- A book is crossed when some non-empty ask level's price is at most some
non-empty bid level's price. -/
def OrderBook.crossed (b : OrderBook) : Bool :=
  b.asks.any fun a => b.bids.any fun l =>
    !a.orders.isEmpty && !l.orders.isEmpty && decide (a.price ≤ l.price)

/-- Book states reachable from the empty book by the public operations, with
orders injected at strictly positive size (and re-fills of an already
consumed order allowed, hence `0 ≤` on the fill path). -/
inductive Reachable : OrderBook → Prop where
  | protected empty : Reachable OrderBook.new
  | protected add {b : OrderBook} {price : ℚ} {o : Order} :
      Reachable b → 0 < o.size → Reachable (b.add_limit_order price o)
  | protected fill {b : OrderBook} {o : Order} {lp : Option ℚ} :
      Reachable b → 0 ≤ o.size → Reachable (b.fill_order o lp).1

/-- Total number of resident orders across the levels of a side map. -/
def totalOrders (limits : List Limit) : Nat :=
  (limits.map fun l => l.orders.length).sum

/-- The ids of all resident orders of a side map. -/
def residentIds (limits : List Limit) : List Nat :=
  (limits.map fun l => l.orders.map Order.id).flatten

/-- The ask book of the repository's `orderbook_fill_market_order_ask` test:
asks of size 10 at prices 500, 100, 200, 300 (ids 1–4), added in that order. -/
def exampleAskBook : OrderBook :=
  ((((OrderBook.new).add_limit_order 500 { id := 1, size := 10, bid_or_ask := .Ask
      }).add_limit_order 100 { id := 2, size := 10, bid_or_ask := .Ask
      }).add_limit_order 200 { id := 3, size := 10, bid_or_ask := .Ask
      }).add_limit_order 300 { id := 4, size := 10, bid_or_ask := .Ask }

/-! ## Lemmas about the level fill loop -/

lemma shares_min (m f : Order) : shares m f = min m.size f.size := by
  unfold shares
  by_cases h : m.size ≥ f.size
  · rw [if_pos h, min_eq_right h]
  · rw [if_neg h, min_eq_left (le_of_not_le h)]

/-- Exhaustiveness of the loop body's cases: an iteration that does not fill
the front resident order fills the incoming order (so the `while` guard stops
the loop right after, which is where `fillLoop` returns). -/
lemma fillLoop_progress (m f : Order)
    (h : ({ f with size := f.size - shares m f } : Order).is_filled = false) :
    ({ m with size := m.size - shares m f } : Order).is_filled = true := by
  unfold Order.is_filled shares at *
  by_cases hc : m.size ≥ f.size
  · rw [if_pos hc] at h
    simp at h
  · rw [if_neg hc]
    simp

lemma fillLoop_nil (price : ℚ) (m : Order) : fillLoop price [] m = ([], m, []) := rfl

lemma fillLoop_cons_filled (price : ℚ) (f : Order) (rest : List Order) (m : Order)
    (h : m.is_filled = true) : fillLoop price (f :: rest) m = (f :: rest, m, []) := by
  simp [fillLoop, h]

/-- An already-filled incoming order makes the loop a no-op. -/
lemma fillLoop_filled (price : ℚ) (os : List Order) (m : Order)
    (h : m.is_filled = true) : fillLoop price os m = (os, m, []) := by
  cases os with
  | nil => rfl
  | cons f rest => exact fillLoop_cons_filled price f rest m h

lemma fillLoop_cons_pop (price : ℚ) (f : Order) (rest : List Order) (m : Order)
    (h1 : m.is_filled = false)
    (h2 : ({ f with size := f.size - shares m f } : Order).is_filled = true) :
    fillLoop price (f :: rest) m =
      ((fillLoop price rest { m with size := m.size - shares m f }).1,
       (fillLoop price rest { m with size := m.size - shares m f }).2.1,
       Execution.new m (shares m f) price :: Execution.new f (shares m f) price ::
         (fillLoop price rest { m with size := m.size - shares m f }).2.2) := by
  simp [fillLoop, h1, h2]

lemma fillLoop_cons_last (price : ℚ) (f : Order) (rest : List Order) (m : Order)
    (h1 : m.is_filled = false)
    (h2 : ({ f with size := f.size - shares m f } : Order).is_filled = false) :
    fillLoop price (f :: rest) m =
      ({ f with size := f.size - shares m f } :: rest,
       { m with size := m.size - shares m f },
       [Execution.new m (shares m f) price, Execution.new f (shares m f) price]) := by
  simp [fillLoop, h1, h2]

/-- The queue after the loop: a prefix of the original queue has been removed
(those orders were processed oldest first and evicted on reaching zero size),
and at most the new front order has had its size changed. -/
lemma fillLoop_queue_suffix (price : ℚ) (os : List Order) (m : Order) :
    ∃ k ≤ os.length,
      ((fillLoop price os m).1 = os.drop k ∨
       ∃ hd tl s, os.drop k = hd :: tl ∧
         (fillLoop price os m).1 = { hd with size := s } :: tl) := by
  induction os generalizing m with
  | nil => exact ⟨0, by simp, Or.inl (by simp [fillLoop_nil])⟩
  | cons f rest ih =>
    by_cases h1 : m.is_filled
    · exact ⟨0, Nat.zero_le _, Or.inl (by simp [fillLoop_cons_filled price f rest m h1])⟩
    · rw [Bool.not_eq_true] at h1
      by_cases h2 : ({ f with size := f.size - shares m f } : Order).is_filled
      · obtain ⟨k, hk, hcase⟩ := ih { m with size := m.size - shares m f }
        refine ⟨k + 1, Nat.succ_le_succ hk, ?_⟩
        rw [fillLoop_cons_pop price f rest m h1 h2]
        simpa using hcase
      · rw [Bool.not_eq_true] at h2
        exact ⟨0, Nat.zero_le _,
          Or.inr ⟨f, rest, f.size - shares m f, by simp,
            by rw [fillLoop_cons_last price f rest m h1 h2]⟩⟩

/-- The loop stops only because the incoming order is filled or the queue has
been exhausted. -/
lemma fillLoop_not_filled_empty (price : ℚ) (os : List Order) (m : Order)
    (h : (fillLoop price os m).2.1.is_filled = false) : (fillLoop price os m).1 = [] := by
  induction os generalizing m with
  | nil => simp [fillLoop_nil]
  | cons f rest ih =>
    by_cases h1 : m.is_filled
    · rw [fillLoop_cons_filled price f rest m h1] at h ⊢
      simp [h1] at h
    · rw [Bool.not_eq_true] at h1
      by_cases h2 : ({ f with size := f.size - shares m f } : Order).is_filled
      · rw [fillLoop_cons_pop price f rest m h1 h2] at h ⊢
        exact ih _ h
      · rw [Bool.not_eq_true] at h2
        rw [fillLoop_cons_last price f rest m h1 h2] at h
        exact absurd (fillLoop_progress m f h2) (by simpa using h)

lemma fillLoop_queue_length (price : ℚ) (os : List Order) (m : Order) :
    (fillLoop price os m).1.length ≤ os.length := by
  obtain ⟨k, _, hcase | ⟨hd, tl, s, hdrop, heq⟩⟩ := fillLoop_queue_suffix price os m
  · rw [hcase]
    exact (os.length_drop k) ▸ Nat.sub_le _ _
  · rw [heq]
    calc (({ hd with size := s } : Order) :: tl).length = (hd :: tl).length := rfl
      _ = (os.drop k).length := by rw [hdrop]
      _ ≤ os.length := (os.length_drop k) ▸ Nat.sub_le _ _

/-- The incoming order's identity and side survive the loop. -/
lemma fillLoop_id_side (price : ℚ) (os : List Order) (m : Order) :
    (fillLoop price os m).2.1.id = m.id ∧
      (fillLoop price os m).2.1.bid_or_ask = m.bid_or_ask := by
  induction os generalizing m with
  | nil => simp [fillLoop_nil]
  | cons f rest ih =>
    by_cases h1 : m.is_filled
    · simp [fillLoop_cons_filled price f rest m h1]
    · rw [Bool.not_eq_true] at h1
      by_cases h2 : ({ f with size := f.size - shares m f } : Order).is_filled
      · rw [fillLoop_cons_pop price f rest m h1 h2]
        exact ih _
      · rw [Bool.not_eq_true] at h2
        rw [fillLoop_cons_last price f rest m h1 h2]
        exact ⟨rfl, rfl⟩

lemma shares_nonneg {m f : Order} (hm : 0 ≤ m.size) (hf : 0 ≤ f.size) :
    0 ≤ shares m f := by
  rw [shares_min]
  exact le_min hm hf

/-- Size bookkeeping of the loop under the book's positivity invariant: the
incoming order's size decreases, stays non-negative, and every surviving
resident order still has strictly positive size. -/
lemma fillLoop_mono (price : ℚ) (os : List Order) (m : Order)
    (hm : 0 ≤ m.size) (hos : ∀ o ∈ os, 0 < o.size) :
    (fillLoop price os m).2.1.size ≤ m.size ∧ 0 ≤ (fillLoop price os m).2.1.size ∧
      ∀ o ∈ (fillLoop price os m).1, 0 < o.size := by
  induction os generalizing m with
  | nil => simpa [fillLoop_nil] using hm
  | cons f rest ih =>
    have hf : 0 < f.size := hos f (by simp)
    have hrest : ∀ o ∈ rest, 0 < o.size := fun o ho => hos o (by simp [ho])
    have hs0 : 0 ≤ shares m f := shares_nonneg hm hf.le
    have hsm : shares m f ≤ m.size := by rw [shares_min]; exact min_le_left _ _
    have hsf : shares m f ≤ f.size := by rw [shares_min]; exact min_le_right _ _
    by_cases h1 : m.is_filled
    · rw [fillLoop_cons_filled price f rest m h1]
      exact ⟨le_refl _, hm, hos⟩
    · rw [Bool.not_eq_true] at h1
      by_cases h2 : ({ f with size := f.size - shares m f } : Order).is_filled
      · rw [fillLoop_cons_pop price f rest m h1 h2]
        obtain ⟨ha, hb, hc⟩ := ih { m with size := m.size - shares m f } (by
          simpa using sub_nonneg.mpr hsm) hrest
        refine ⟨ha.trans ?_, hb, hc⟩
        simpa using sub_le_self m.size hs0
      · rw [Bool.not_eq_true] at h2
        rw [fillLoop_cons_last price f rest m h1 h2]
        refine ⟨by simpa using sub_le_self m.size hs0, by simpa using sub_nonneg.mpr hsm, ?_⟩
        intro o ho
        rcases List.mem_cons.mp ho with rfl | ho'
        · have hne : f.size - shares m f ≠ 0 := by
            simpa [Order.is_filled] using h2
          exact lt_of_le_of_ne (sub_nonneg.mpr hsf) (Ne.symm hne)
        · exact hrest o ho'

/-- The executions of one loop are a flat list of (incoming, resident) pairs:
equal fill size within a pair, both at the level's price, the first of each
pair attributed to the incoming order and the second to a resident order, and
the total size filled on the incoming side is exactly its size decrease. -/
lemma fillLoop_pairs (price : ℚ) (os : List Order) (m : Order) :
    ∃ pairs : List (Execution × Execution),
      (fillLoop price os m).2.2 = (pairs.map fun q => [q.1, q.2]).flatten ∧
      (∀ q ∈ pairs, q.1.id = m.id ∧ q.1.bid_or_ask = m.bid_or_ask ∧
        q.1.size = q.2.size ∧ q.1.price = price ∧ q.2.price = price ∧
        q.2.id ∈ os.map Order.id) ∧
      (pairs.map fun q => q.1.size).sum = m.size - (fillLoop price os m).2.1.size := by
  induction os generalizing m with
  | nil => exact ⟨[], by simp [fillLoop_nil], by simp, by simp [fillLoop_nil]⟩
  | cons f rest ih =>
    by_cases h1 : m.is_filled
    · exact ⟨[], by simp [fillLoop_cons_filled price f rest m h1], by simp,
        by simp [fillLoop_cons_filled price f rest m h1]⟩
    · rw [Bool.not_eq_true] at h1
      by_cases h2 : ({ f with size := f.size - shares m f } : Order).is_filled
      · obtain ⟨pairs, hp1, hp2, hp3⟩ := ih { m with size := m.size - shares m f }
        refine ⟨(Execution.new m (shares m f) price, Execution.new f (shares m f) price)
            :: pairs, ?_, ?_, ?_⟩
        · rw [fillLoop_cons_pop price f rest m h1 h2]
          simp [hp1, Execution.new]
        · intro q hq
          rcases List.mem_cons.mp hq with rfl | hq'
          · exact ⟨rfl, rfl, rfl, rfl, rfl, by simp [Execution.new]⟩
          · obtain ⟨a, b, c, d, e, g⟩ := hp2 q hq'
            exact ⟨a, b, c, d, e, by simp [List.mem_cons]; right; simpa using g⟩
        · rw [fillLoop_cons_pop price f rest m h1 h2]
          simp only [List.map_cons, List.sum_cons, hp3]
          simp [Execution.new]
          ring
      · rw [Bool.not_eq_true] at h2
        refine ⟨[(Execution.new m (shares m f) price, Execution.new f (shares m f) price)],
          ?_, ?_, ?_⟩
        · rw [fillLoop_cons_last price f rest m h1 h2]
          simp
        · intro q hq
          rcases List.mem_cons.mp hq with rfl | hq'
          · exact ⟨rfl, rfl, rfl, rfl, rfl, by simp [Execution.new]⟩
          · simp at hq'
        · rw [fillLoop_cons_last price f rest m h1 h2]
          simp [Execution.new]

/-- Each iteration of the loop emits two executions and, except possibly for
the final iteration, pops one resident order: the number of executions is
bounded by twice the orders consumed plus one final pair. -/
lemma fillLoop_execs_length (price : ℚ) (os : List Order) (m : Order) :
    (fillLoop price os m).2.2.length + 2 * (fillLoop price os m).1.length ≤
      2 * os.length + 2 := by
  induction os generalizing m with
  | nil => simp [fillLoop_nil]
  | cons f rest ih =>
    by_cases h1 : m.is_filled
    · rw [fillLoop_cons_filled price f rest m h1]
      simp [Nat.mul_succ]
    · rw [Bool.not_eq_true] at h1
      by_cases h2 : ({ f with size := f.size - shares m f } : Order).is_filled
      · rw [fillLoop_cons_pop price f rest m h1 h2]
        have := ih { m with size := m.size - shares m f }
        simp only [List.length_cons]
        omega
      · rw [Bool.not_eq_true] at h2
        rw [fillLoop_cons_last price f rest m h1 h2]
        simp only [List.length_cons, List.length_nil]
        omega

/-! ## Lemmas about filling one keyed level of a side map -/

lemma Limit.fill_order_eq (l : Limit) (o : Order) :
    l.fill_order o = ({ l with orders := (fillLoop l.price l.orders o).1 },
      (fillLoop l.price l.orders o).2.1, (fillLoop l.price l.orders o).2.2) := rfl

lemma fillAt_nil (p : ℚ) (o : Order) : fillAt [] p o = ([], o, []) := rfl

lemma fillAt_cons_eq (l : Limit) (ls : List Limit) (p : ℚ) (o : Order) (h : l.price = p) :
    fillAt (l :: ls) p o =
      ((l.fill_order o).1 :: ls, (l.fill_order o).2.1, (l.fill_order o).2.2) := by
  simp [fillAt, h]

lemma fillAt_cons_ne (l : Limit) (ls : List Limit) (p : ℚ) (o : Order) (h : ¬l.price = p) :
    fillAt (l :: ls) p o =
      (l :: (fillAt ls p o).1, (fillAt ls p o).2.1, (fillAt ls p o).2.2) := by
  simp [fillAt, h]

/-- Filling at a price changes neither the set nor the order of level keys. -/
lemma fillAt_price_map (limits : List Limit) (p : ℚ) (o : Order) :
    ((fillAt limits p o).1).map Limit.price = limits.map Limit.price := by
  induction limits with
  | nil => simp [fillAt_nil]
  | cons l ls ih =>
    by_cases h : l.price = p
    · rw [fillAt_cons_eq l ls p o h]
      simp [Limit.fill_order_eq]
    · rw [fillAt_cons_ne l ls p o h]
      simp [ih]

/-- Pointwise frame property of one level fill: keys are untouched, levels at
other prices are untouched, and a level that ends up non-empty was non-empty
(queues only shrink). -/
lemma fillAt_pointwise (limits : List Limit) (p : ℚ) (o : Order) :
    List.Forall₂ (fun l l' : Limit => l'.price = l.price ∧ (l.price ≠ p → l' = l) ∧
        (l'.orders ≠ [] → l.orders ≠ []) ∧ l'.orders.length ≤ l.orders.length)
      limits (fillAt limits p o).1 := by
  induction limits with
  | nil => simp [fillAt_nil]
  | cons l ls ih =>
    by_cases h : l.price = p
    · rw [fillAt_cons_eq l ls p o h]
      refine List.Forall₂.cons ⟨rfl, fun hne => absurd h hne, ?_, ?_⟩ ?_
      · intro hne
        simp only [Limit.fill_order_eq] at hne
        intro hnil
        rw [hnil] at hne
        simp [fillLoop_nil] at hne
      · simpa [Limit.fill_order_eq] using fillLoop_queue_length l.price l.orders o
      · exact List.forall₂_same.mpr fun x _ => ⟨rfl, fun _ => rfl, fun hx => hx, le_refl _⟩
    · rw [fillAt_cons_ne l ls p o h]
      exact List.Forall₂.cons ⟨rfl, fun _ => rfl, fun hx => hx, le_refl _⟩ ih

lemma fillAt_id_side (limits : List Limit) (p : ℚ) (o : Order) :
    (fillAt limits p o).2.1.id = o.id ∧
      (fillAt limits p o).2.1.bid_or_ask = o.bid_or_ask := by
  induction limits with
  | nil => simp [fillAt_nil]
  | cons l ls ih =>
    by_cases h : l.price = p
    · rw [fillAt_cons_eq l ls p o h]
      simpa [Limit.fill_order_eq] using fillLoop_id_side l.price l.orders o
    · rw [fillAt_cons_ne l ls p o h]
      exact ih

/-- A filled incoming order makes the keyed fill a no-op. -/
lemma fillAt_filled (limits : List Limit) (p : ℚ) (o : Order)
    (h : o.is_filled = true) : fillAt limits p o = (limits, o, []) := by
  induction limits with
  | nil => simp [fillAt_nil]
  | cons l ls ih =>
    by_cases hp : l.price = p
    · rw [fillAt_cons_eq l ls p o hp]
      simp [Limit.fill_order_eq, fillLoop_filled l.price l.orders o h]
    · rw [fillAt_cons_ne l ls p o hp, ih]

/-- If the incoming order is still unfilled after the keyed fill, the queue of
the (unique) level keyed at that price has been exhausted. -/
lemma fillAt_not_filled_empty (limits : List Limit) (p : ℚ) (o : Order)
    (hN : (limits.map Limit.price).Nodup)
    (h : (fillAt limits p o).2.1.is_filled = false) :
    ∀ l' ∈ (fillAt limits p o).1, l'.price = p → l'.orders = [] := by
  induction limits generalizing o with
  | nil => simp [fillAt_nil]
  | cons l ls ih =>
    simp only [List.map_cons, List.nodup_cons] at hN
    by_cases hp : l.price = p
    · rw [fillAt_cons_eq l ls p o hp] at h ⊢
      intro l' hl' hl'p
      rcases List.mem_cons.mp hl' with rfl | hmem
      · simp only [Limit.fill_order_eq] at h ⊢
        exact fillLoop_not_filled_empty l.price l.orders o h
      · exfalso
        exact hN.1 (hp ▸ hl'p ▸ List.mem_map_of_mem Limit.price hmem)
    · rw [fillAt_cons_ne l ls p o hp] at h ⊢
      intro l' hl' hl'p
      rcases List.mem_cons.mp hl' with rfl | hmem
      · exact absurd hl'p hp
      · exact ih o hN.2 h l' hmem hl'p

lemma fillAt_mono (limits : List Limit) (p : ℚ) (o : Order) (ho : 0 ≤ o.size)
    (hres : ∀ l ∈ limits, ∀ x ∈ l.orders, 0 < x.size) :
    (fillAt limits p o).2.1.size ≤ o.size ∧ 0 ≤ (fillAt limits p o).2.1.size ∧
      ∀ l ∈ (fillAt limits p o).1, ∀ x ∈ l.orders, 0 < x.size := by
  induction limits generalizing o with
  | nil => exact ⟨le_refl _, ho, by simp [fillAt_nil]⟩
  | cons l ls ih =>
    have hl : ∀ x ∈ l.orders, 0 < x.size := hres l (by simp)
    have hls : ∀ l' ∈ ls, ∀ x ∈ l'.orders, 0 < x.size := fun l' h' => hres l' (by simp [h'])
    by_cases hp : l.price = p
    · rw [fillAt_cons_eq l ls p o hp]
      obtain ⟨ha, hb, hc⟩ := fillLoop_mono l.price l.orders o ho hl
      refine ⟨by simpa [Limit.fill_order_eq] using ha, by simpa [Limit.fill_order_eq] using hb, ?_⟩
      intro l' hl' x hx
      rcases List.mem_cons.mp hl' with rfl | hmem
      · exact hc x (by simpa [Limit.fill_order_eq] using hx)
      · exact hls l' hmem x hx
    · rw [fillAt_cons_ne l ls p o hp]
      obtain ⟨ha, hb, hc⟩ := ih o ho hls
      refine ⟨ha, hb, ?_⟩
      intro l' hl' x hx
      rcases List.mem_cons.mp hl' with rfl | hmem
      · exact hl x hx
      · exact hc l' hmem x hx

lemma fillAt_pairs (limits : List Limit) (p : ℚ) (o : Order) :
    ∃ pairs : List (Execution × Execution),
      (fillAt limits p o).2.2 = (pairs.map fun q => [q.1, q.2]).flatten ∧
      (∀ q ∈ pairs, q.1.id = o.id ∧ q.1.bid_or_ask = o.bid_or_ask ∧
        q.1.size = q.2.size ∧ q.1.price = q.2.price ∧ q.2.id ∈ residentIds limits) ∧
      (pairs.map fun q => q.1.size).sum = o.size - (fillAt limits p o).2.1.size := by
  induction limits generalizing o with
  | nil => exact ⟨[], by simp [fillAt_nil], by simp, by simp [fillAt_nil]⟩
  | cons l ls ih =>
    by_cases hp : l.price = p
    · rw [fillAt_cons_eq l ls p o hp]
      obtain ⟨pairs, h1, h2, h3⟩ := fillLoop_pairs l.price l.orders o
      refine ⟨pairs, by simpa [Limit.fill_order_eq] using h1, ?_,
        by simpa [Limit.fill_order_eq] using h3⟩
      intro q hq
      obtain ⟨a, b, c, d, e, g⟩ := h2 q hq
      refine ⟨a, b, c, d.trans e.symm, ?_⟩
      simp only [residentIds, List.mem_flatten]
      exact ⟨l.orders.map Order.id, by simp, g⟩
    · rw [fillAt_cons_ne l ls p o hp]
      obtain ⟨pairs, h1, h2, h3⟩ := ih o
      refine ⟨pairs, h1, ?_, h3⟩
      intro q hq
      obtain ⟨a, b, c, d, g⟩ := h2 q hq
      refine ⟨a, b, c, d, ?_⟩
      simp only [residentIds, List.mem_flatten] at g ⊢
      obtain ⟨ids, hids, hg⟩ := g
      exact ⟨ids, by simp [List.mem_map] at hids ⊢; tauto, hg⟩

lemma fillAt_execs_length (limits : List Limit) (p : ℚ) (o : Order) :
    (fillAt limits p o).2.2.length + 2 * totalOrders (fillAt limits p o).1 ≤
      2 * totalOrders limits + 2 := by
  induction limits generalizing o with
  | nil => simp [fillAt_nil, totalOrders]
  | cons l ls ih =>
    by_cases hp : l.price = p
    · rw [fillAt_cons_eq l ls p o hp]
      have := fillLoop_execs_length l.price l.orders o
      simp only [Limit.fill_order_eq, totalOrders, List.map_cons, List.sum_cons]
      simp only [totalOrders] at this ⊢
      omega
    · rw [fillAt_cons_ne l ls p o hp]
      have := ih o
      simp only [totalOrders, List.map_cons, List.sum_cons] at this ⊢
      omega

/-! ## Lemmas about the walk over the sorted candidate prices -/

lemma forall₂_compose {α : Type} {R S T : α → α → Prop} :
    ∀ {a b c : List α}, List.Forall₂ R a b → List.Forall₂ S b c →
      (∀ x y z, R x y → S y z → T x z) → List.Forall₂ T a c := by
  intro a b c hab hbc htrans
  induction hab generalizing c with
  | nil =>
    cases hbc
    exact List.Forall₂.nil
  | cons hxy hrest ih =>
    cases hbc with
    | cons hyz hrest' => exact List.Forall₂.cons (htrans _ _ _ hxy hyz) (ih hrest')

lemma forall₂_mem_right {α : Type} {R : α → α → Prop} :
    ∀ {a b : List α}, List.Forall₂ R a b → ∀ y ∈ b, ∃ x ∈ a, R x y := by
  intro a b hab
  induction hab with
  | nil => simp
  | cons hxy hrest ih =>
    intro y hy
    rcases List.mem_cons.mp hy with rfl | hy'
    · exact ⟨_, by simp, hxy⟩
    · obtain ⟨x, hx, hR⟩ := ih y hy'
      exact ⟨x, by simp [hx], hR⟩

lemma walkPrices_nil (limits : List Limit) (o : Order) :
    walkPrices limits o [] = (limits, o, []) := rfl

lemma walkPrices_cons_stop (limits : List Limit) (o : Order) (p : ℚ) (ps : List ℚ)
    (h : (fillAt limits p o).2.1.is_filled = true) :
    walkPrices limits o (p :: ps) =
      ((fillAt limits p o).1, (fillAt limits p o).2.1, (fillAt limits p o).2.2) := by
  simp [walkPrices, h]

lemma walkPrices_cons_go (limits : List Limit) (o : Order) (p : ℚ) (ps : List ℚ)
    (h : (fillAt limits p o).2.1.is_filled = false) :
    walkPrices limits o (p :: ps) =
      ((walkPrices (fillAt limits p o).1 (fillAt limits p o).2.1 ps).1,
       (walkPrices (fillAt limits p o).1 (fillAt limits p o).2.1 ps).2.1,
       (fillAt limits p o).2.2 ++
         (walkPrices (fillAt limits p o).1 (fillAt limits p o).2.1 ps).2.2) := by
  simp [walkPrices, h]

/-- A filled incoming order makes the whole walk a no-op. -/
lemma walkPrices_filled (limits : List Limit) (o : Order) (ps : List ℚ)
    (h : o.is_filled = true) : walkPrices limits o ps = (limits, o, []) := by
  cases ps with
  | nil => rfl
  | cons p ps =>
    rw [walkPrices_cons_stop limits o p ps (by rw [fillAt_filled limits p o h]; exact h)]
    rw [fillAt_filled limits p o h]

lemma walkPrices_price_map (limits : List Limit) (o : Order) (ps : List ℚ) :
    ((walkPrices limits o ps).1).map Limit.price = limits.map Limit.price := by
  induction ps generalizing limits o with
  | nil => simp [walkPrices_nil]
  | cons p ps ih =>
    by_cases h : (fillAt limits p o).2.1.is_filled
    · rw [walkPrices_cons_stop limits o p ps h]
      exact fillAt_price_map limits p o
    · rw [Bool.not_eq_true] at h
      rw [walkPrices_cons_go limits o p ps h]
      rw [ih _ _, fillAt_price_map limits p o]

lemma walkPrices_id_side (limits : List Limit) (o : Order) (ps : List ℚ) :
    (walkPrices limits o ps).2.1.id = o.id ∧
      (walkPrices limits o ps).2.1.bid_or_ask = o.bid_or_ask := by
  induction ps generalizing limits o with
  | nil => simp [walkPrices_nil]
  | cons p ps ih =>
    by_cases h : (fillAt limits p o).2.1.is_filled
    · rw [walkPrices_cons_stop limits o p ps h]
      exact fillAt_id_side limits p o
    · rw [Bool.not_eq_true] at h
      rw [walkPrices_cons_go limits o p ps h]
      obtain ⟨ha, hb⟩ := ih (fillAt limits p o).1 (fillAt limits p o).2.1
      obtain ⟨hc, hd⟩ := fillAt_id_side limits p o
      exact ⟨ha.trans hc, hb.trans hd⟩

/-- Pointwise frame property of the walk: keys are untouched, levels whose
price is not among the walked candidates are untouched, and queues only
shrink. -/
lemma walkPrices_pointwise (limits : List Limit) (o : Order) (ps : List ℚ) :
    List.Forall₂ (fun l l' : Limit => l'.price = l.price ∧ (l.price ∉ ps → l' = l) ∧
        (l'.orders ≠ [] → l.orders ≠ []))
      limits (walkPrices limits o ps).1 := by
  induction ps generalizing limits o with
  | nil =>
    rw [walkPrices_nil]
    exact List.forall₂_same.mpr fun x _ => ⟨rfl, fun _ => rfl, fun hx => hx⟩
  | cons p ps ih =>
    by_cases h : (fillAt limits p o).2.1.is_filled
    · rw [walkPrices_cons_stop limits o p ps h]
      refine List.Forall₂.imp ?_ (fillAt_pointwise limits p o)
      rintro l l' ⟨h1, h2, h3, _⟩
      refine ⟨h1, fun hnm => h2 ?_, h3⟩
      intro hpeq
      exact hnm (hpeq ▸ List.mem_cons_self p ps)
    · rw [Bool.not_eq_true] at h
      rw [walkPrices_cons_go limits o p ps h]
      refine forall₂_compose (fillAt_pointwise limits p o)
        (ih (fillAt limits p o).1 (fillAt limits p o).2.1) ?_
      rintro x y z ⟨h1, h2, h3, _⟩ ⟨h4, h5, h6⟩
      refine ⟨h4.trans h1, fun hnm => ?_, fun hz => h3 (h6 hz)⟩
      have hxp : x.price ∉ ps := fun hmem => hnm (List.mem_cons_of_mem p hmem)
      have hxy : y = x := h2 fun hpeq => hnm (hpeq ▸ List.mem_cons_self p ps)
      rw [← hxy] at hxp ⊢
      exact h5 (hxy ▸ hxp)

lemma walkPrices_mono (limits : List Limit) (o : Order) (ps : List ℚ) (ho : 0 ≤ o.size)
    (hres : ∀ l ∈ limits, ∀ x ∈ l.orders, 0 < x.size) :
    (walkPrices limits o ps).2.1.size ≤ o.size ∧ 0 ≤ (walkPrices limits o ps).2.1.size ∧
      ∀ l ∈ (walkPrices limits o ps).1, ∀ x ∈ l.orders, 0 < x.size := by
  induction ps generalizing limits o with
  | nil => exact ⟨le_refl _, ho, by simpa [walkPrices_nil] using hres⟩
  | cons p ps ih =>
    obtain ⟨ha, hb, hc⟩ := fillAt_mono limits p o ho hres
    by_cases h : (fillAt limits p o).2.1.is_filled
    · rw [walkPrices_cons_stop limits o p ps h]
      exact ⟨ha, hb, hc⟩
    · rw [Bool.not_eq_true] at h
      rw [walkPrices_cons_go limits o p ps h]
      obtain ⟨hd, he, hf⟩ := ih (fillAt limits p o).1 (fillAt limits p o).2.1 hb hc
      exact ⟨hd.trans ha, he, hf⟩

lemma residentIds_cons (l : Limit) (ls : List Limit) :
    residentIds (l :: ls) = l.orders.map Order.id ++ residentIds ls := by
  simp [residentIds]

/-- Orders surviving the loop come from the original queue (by id). -/
lemma fillLoop_ids_subset (price : ℚ) (os : List Order) (m : Order) :
    ∀ x ∈ (fillLoop price os m).1, x.id ∈ os.map Order.id := by
  obtain ⟨k, _, hcase | ⟨hd, tl, s, hdrop, heq⟩⟩ := fillLoop_queue_suffix price os m
  · rw [hcase]
    intro x hx
    exact List.mem_map_of_mem Order.id (List.mem_of_mem_drop hx)
  · rw [heq]
    intro x hx
    rcases List.mem_cons.mp hx with rfl | hx'
    · have hm : hd ∈ os := List.mem_of_mem_drop (hdrop ▸ List.mem_cons_self hd tl)
      simpa using List.mem_map_of_mem Order.id hm
    · have hm : x ∈ os := List.mem_of_mem_drop (hdrop ▸ List.mem_cons_of_mem hd hx')
      exact List.mem_map_of_mem Order.id hm

lemma fillAt_resident_ids (limits : List Limit) (p : ℚ) (o : Order) :
    ∀ x ∈ residentIds (fillAt limits p o).1, x ∈ residentIds limits := by
  induction limits generalizing o with
  | nil => simp [fillAt_nil]
  | cons l ls ih =>
    by_cases hp : l.price = p
    · rw [fillAt_cons_eq l ls p o hp]
      intro x hx
      rw [residentIds_cons, List.mem_append] at hx ⊢
      rcases hx with hx | hx
      · left
        simp only [Limit.fill_order_eq] at hx
        obtain ⟨y, hy, hyx⟩ := List.mem_map.mp hx
        exact hyx ▸ fillLoop_ids_subset l.price l.orders o y hy
      · right
        exact hx
    · rw [fillAt_cons_ne l ls p o hp]
      intro x hx
      rw [residentIds_cons, List.mem_append] at hx ⊢
      rcases hx with hx | hx
      · left
        exact hx
      · right
        exact ih o x hx

lemma walkPrices_resident_ids (limits : List Limit) (o : Order) (ps : List ℚ) :
    ∀ x ∈ residentIds (walkPrices limits o ps).1, x ∈ residentIds limits := by
  induction ps generalizing limits o with
  | nil => simp [walkPrices_nil]
  | cons p ps ih =>
    by_cases h : (fillAt limits p o).2.1.is_filled
    · rw [walkPrices_cons_stop limits o p ps h]
      exact fillAt_resident_ids limits p o
    · rw [Bool.not_eq_true] at h
      rw [walkPrices_cons_go limits o p ps h]
      intro x hx
      exact fillAt_resident_ids limits p o x
        (ih (fillAt limits p o).1 (fillAt limits p o).2.1 x hx)

/-- The executions of a whole walk, as (incoming, resident) pairs. -/
lemma walkPrices_pairs (limits : List Limit) (o : Order) (ps : List ℚ) :
    ∃ pairs : List (Execution × Execution),
      (walkPrices limits o ps).2.2 = (pairs.map fun q => [q.1, q.2]).flatten ∧
      (∀ q ∈ pairs, q.1.id = o.id ∧ q.1.bid_or_ask = o.bid_or_ask ∧
        q.1.size = q.2.size ∧ q.1.price = q.2.price ∧ q.2.id ∈ residentIds limits) ∧
      (pairs.map fun q => q.1.size).sum = o.size - (walkPrices limits o ps).2.1.size := by
  induction ps generalizing limits o with
  | nil => exact ⟨[], by simp [walkPrices_nil], by simp, by simp [walkPrices_nil]⟩
  | cons p ps ih =>
    by_cases h : (fillAt limits p o).2.1.is_filled
    · rw [walkPrices_cons_stop limits o p ps h]
      exact fillAt_pairs limits p o
    · rw [Bool.not_eq_true] at h
      rw [walkPrices_cons_go limits o p ps h]
      obtain ⟨P1, a1, b1, c1⟩ := fillAt_pairs limits p o
      obtain ⟨P2, a2, b2, c2⟩ := ih (fillAt limits p o).1 (fillAt limits p o).2.1
      obtain ⟨hid, hside⟩ := fillAt_id_side limits p o
      refine ⟨P1 ++ P2, ?_, ?_, ?_⟩
      · simp [a1, a2]
      · intro q hq
        rcases List.mem_append.mp hq with hq' | hq'
        · exact b1 q hq'
        · obtain ⟨x1, x2, x3, x4, x5⟩ := b2 q hq'
          exact ⟨x1.trans hid, x2.trans hside, x3, x4,
            fillAt_resident_ids limits p o q.2.id x5⟩
      · simp only [List.map_append, List.sum_append, c1, c2]
        ring

/-- The walk is a walk of some prefix of the candidate list: it stops early
exactly when the incoming order has been filled. -/
lemma walkPrices_take (limits : List Limit) (o : Order) (ps : List ℚ) :
    ∃ k ≤ ps.length, walkPrices limits o ps = walkPrices limits o (ps.take k) ∧
      (k < ps.length → (walkPrices limits o (ps.take k)).2.1.is_filled = true) := by
  induction ps generalizing limits o with
  | nil => exact ⟨0, le_refl _, rfl, by simp⟩
  | cons p ps ih =>
    by_cases h : (fillAt limits p o).2.1.is_filled
    · refine ⟨1, by simp, ?_, ?_⟩
      · show walkPrices limits o (p :: ps) = walkPrices limits o (p :: [])
        rw [walkPrices_cons_stop limits o p ps h, walkPrices_cons_stop limits o p [] h]
      · intro _
        show (walkPrices limits o (p :: [])).2.1.is_filled = true
        rw [walkPrices_cons_stop limits o p [] h]
        exact h
    · rw [Bool.not_eq_true] at h
      obtain ⟨k, hk, heq, hfil⟩ := ih (fillAt limits p o).1 (fillAt limits p o).2.1
      refine ⟨k + 1, Nat.succ_le_succ hk, ?_, ?_⟩
      · show walkPrices limits o (p :: ps) = walkPrices limits o (p :: ps.take k)
        rw [walkPrices_cons_go limits o p ps h, walkPrices_cons_go limits o p (ps.take k) h,
          heq]
      · intro hlt
        show (walkPrices limits o (p :: ps.take k)).2.1.is_filled = true
        rw [walkPrices_cons_go limits o p (ps.take k) h]
        exact hfil (Nat.lt_of_succ_lt_succ hlt)

/-- When the walk ends with the incoming order still unfilled, every level
keyed at a walked candidate price has an exhausted queue. -/
lemma walkPrices_not_filled_empty (limits : List Limit) (o : Order) (ps : List ℚ)
    (hN : (limits.map Limit.price).Nodup)
    (h : (walkPrices limits o ps).2.1.is_filled = false) :
    ∀ l' ∈ (walkPrices limits o ps).1, l'.price ∈ ps → l'.orders = [] := by
  induction ps generalizing limits o with
  | nil => simp
  | cons p ps ih =>
    by_cases hstop : (fillAt limits p o).2.1.is_filled
    · rw [walkPrices_cons_stop limits o p ps hstop] at h
      rw [hstop] at h
      simp at h
    · rw [Bool.not_eq_true] at hstop
      rw [walkPrices_cons_go limits o p ps hstop] at h ⊢
      intro l' hl' hl'p
      have hN' : (((fillAt limits p o).1).map Limit.price).Nodup := by
        rw [fillAt_price_map limits p o]
        exact hN
      rcases List.mem_cons.mp hl'p with heq | hmem
      · by_contra hne
        obtain ⟨l0, hl0, hrel⟩ :=
          forall₂_mem_right (walkPrices_pointwise (fillAt limits p o).1
            (fillAt limits p o).2.1 ps) l' hl'
        have hl0ne : l0.orders ≠ [] := hrel.2.2 hne
        have hl0p : l0.price = p := by rw [← hrel.1, heq]
        exact hl0ne (fillAt_not_filled_empty limits p o hN hstop l0 hl0 hl0p)
      · exact ih (fillAt limits p o).1 (fillAt limits p o).2.1 hN' h l' hl' hmem

/-- Execution-count bound for the walk: at most two executions per consumed
resident order plus two per walked level. -/
lemma walkPrices_execs_length (limits : List Limit) (o : Order) (ps : List ℚ) :
    (walkPrices limits o ps).2.2.length + 2 * totalOrders (walkPrices limits o ps).1 ≤
      2 * totalOrders limits + 2 * ps.length := by
  induction ps generalizing limits o with
  | nil => simp [walkPrices_nil]
  | cons p ps ih =>
    by_cases h : (fillAt limits p o).2.1.is_filled
    · rw [walkPrices_cons_stop limits o p ps h]
      have := fillAt_execs_length limits p o
      simp only [List.length_cons]
      omega
    · rw [Bool.not_eq_true] at h
      rw [walkPrices_cons_go limits o p ps h]
      have h1 := fillAt_execs_length limits p o
      have h2 := ih (fillAt limits p o).1 (fillAt limits p o).2.1
      simp only [List.length_append, List.length_cons]
      omega

/-! ## Lemmas about candidate level selection -/

lemma askLimitPrices_sorted (asks : List Limit) (lp : Option ℚ) :
    (askLimitPrices asks lp).Sorted (· ≤ ·) := by
  simp only [askLimitPrices]
  exact List.sorted_insertionSort _ _

lemma bidLimitPrices_sorted (bids : List Limit) (lp : Option ℚ) :
    (bidLimitPrices bids lp).Sorted (· ≥ ·) := by
  simp only [bidLimitPrices]
  exact List.sorted_insertionSort _ _

lemma askLimitPrices_none_perm (asks : List Limit) :
    (askLimitPrices asks none).Perm (asks.map Limit.price) := by
  simp only [askLimitPrices]
  exact List.perm_insertionSort _ _

lemma bidLimitPrices_none_perm (bids : List Limit) :
    (bidLimitPrices bids none).Perm (bids.map Limit.price) := by
  simp only [bidLimitPrices]
  exact List.perm_insertionSort _ _

lemma askLimitPrices_some_mem (asks : List Limit) (P q : ℚ) :
    q ∈ askLimitPrices asks (some P) ↔ q ∈ asks.map Limit.price ∧ q ≤ P := by
  simp only [askLimitPrices, List.mem_insertionSort, List.mem_map, List.mem_filter,
    decide_eq_true_eq]
  constructor
  · rintro ⟨l, ⟨hl, hle⟩, rfl⟩
    exact ⟨⟨l, hl, rfl⟩, hle⟩
  · rintro ⟨⟨l, hl, rfl⟩, hle⟩
    exact ⟨l, ⟨hl, hle⟩, rfl⟩

lemma bidLimitPrices_some_mem (bids : List Limit) (P q : ℚ) :
    q ∈ bidLimitPrices bids (some P) ↔ q ∈ bids.map Limit.price ∧ P ≤ q := by
  simp only [bidLimitPrices, List.mem_insertionSort, List.mem_map, List.mem_filter,
    decide_eq_true_eq]
  constructor
  · rintro ⟨l, ⟨hl, hle⟩, rfl⟩
    exact ⟨⟨l, hl, rfl⟩, hle⟩
  · rintro ⟨⟨l, hl, rfl⟩, hle⟩
    exact ⟨l, ⟨hl, hle⟩, rfl⟩

lemma askLimitPrices_mem_of_mem (asks : List Limit) (l : Limit) (hl : l ∈ asks) :
    l.price ∈ askLimitPrices asks none := by
  exact (askLimitPrices_none_perm asks).mem_iff.mpr (List.mem_map_of_mem Limit.price hl)

lemma askLimitPrices_length (asks : List Limit) (lp : Option ℚ) :
    (askLimitPrices asks lp).length ≤ asks.length := by
  simp only [askLimitPrices]
  rw [(List.perm_insertionSort _ _).length_eq, List.length_map]
  cases lp with
  | none => exact le_refl _
  | some P => exact List.length_filter_le _ _

lemma bidLimitPrices_length (bids : List Limit) (lp : Option ℚ) :
    (bidLimitPrices bids lp).length ≤ bids.length := by
  simp only [bidLimitPrices]
  rw [(List.perm_insertionSort _ _).length_eq, List.length_map]
  cases lp with
  | none => exact le_refl _
  | some P => exact List.length_filter_le _ _

/-! ## Lemmas about adding a resting order -/

lemma insertOrder_price_map (ls : List Limit) (price : ℚ) (o : Order) :
    (insertOrder ls price o).map Limit.price =
      if price ∈ ls.map Limit.price then ls.map Limit.price
      else ls.map Limit.price ++ [price] := by
  induction ls with
  | nil => simp [insertOrder, Limit.new, Limit.add_order]
  | cons l ls ih =>
    by_cases h : l.price = price
    · simp [insertOrder, h, Limit.add_order]
    · have hne : ¬price = l.price := fun hc => h hc.symm
      simp only [insertOrder, if_neg h, List.map_cons, List.mem_cons, ih]
      by_cases hmem : price ∈ ls.map Limit.price
      · simp [hmem, hne]
      · simp [hmem, hne]

lemma insertOrder_nodup (ls : List Limit) (price : ℚ) (o : Order)
    (h : (ls.map Limit.price).Nodup) : ((insertOrder ls price o).map Limit.price).Nodup := by
  rw [insertOrder_price_map]
  by_cases hmem : price ∈ ls.map Limit.price
  · rw [if_pos hmem]
    exact h
  · rw [if_neg hmem]
    simp [List.nodup_append, h, hmem]

lemma insertOrder_pos (ls : List Limit) (price : ℚ) (o : Order) (ho : 0 < o.size)
    (h : ∀ l ∈ ls, ∀ x ∈ l.orders, 0 < x.size) :
    ∀ l ∈ insertOrder ls price o, ∀ x ∈ l.orders, 0 < x.size := by
  induction ls with
  | nil =>
    intro l hl x hx
    simp only [insertOrder, Limit.new, Limit.add_order, List.mem_singleton] at hl
    rw [hl] at hx
    simp at hx
    rw [hx]
    exact ho
  | cons hd tl ih =>
    intro l hl x hx
    by_cases hp : hd.price = price
    · rw [insertOrder, if_pos hp] at hl
      rcases List.mem_cons.mp hl with rfl | hmem
      · simp only [Limit.add_order, List.mem_append, List.mem_singleton] at hx
        rcases hx with hx | rfl
        · exact h hd (by simp) x hx
        · exact ho
      · exact h l (by simp [hmem]) x hx
    · rw [insertOrder, if_neg hp] at hl
      rcases List.mem_cons.mp hl with rfl | hmem
      · exact h l (by simp) x hx
      · exact ih (fun l' hl' => h l' (by simp [hl'])) l hmem x hx

/-- A level of the side map after an add is either one of the original levels,
unchanged, or a level keyed (and priced) at the added price. -/
lemma insertOrder_mem_cases (ls : List Limit) (price : ℚ) (o : Order) :
    ∀ l' ∈ insertOrder ls price o, l' ∈ ls ∨ l'.price = price := by
  induction ls with
  | nil =>
    intro l' hl'
    simp only [insertOrder, List.mem_singleton] at hl'
    right
    rw [hl']
    rfl
  | cons hd tl ih =>
    intro l' hl'
    by_cases hp : hd.price = price
    · rw [insertOrder, if_pos hp] at hl'
      rcases List.mem_cons.mp hl' with rfl | hmem
      · right
        rw [Limit.add_order]
        exact hp
      · left
        simp [hmem]
    · rw [insertOrder, if_neg hp] at hl'
      rcases List.mem_cons.mp hl' with rfl | hmem
      · left
        simp
      · rcases ih l' hmem with h | h
        · left
          simp [h]
        · right
          exact h

/-! ## The crossed-book predicate and the fill path at book level -/

lemma crossed_false_iff (b : OrderBook) :
    b.crossed = false ↔
      ∀ a ∈ b.asks, a.orders ≠ [] → ∀ l ∈ b.bids, l.orders ≠ [] → l.price < a.price := by
  unfold OrderBook.crossed
  rw [Bool.eq_false_iff]
  simp only [ne_eq, List.any_eq_true, Bool.and_eq_true, Bool.not_eq_true',
    List.isEmpty_eq_false, decide_eq_true_eq, not_exists, not_and]
  push_neg
  constructor
  · intro h a ha hane l hl hlne
    exact h a ha l hl ⟨hane, hlne⟩
  · intro h a ha l hl hane
    exact h a ha hane.1 l hl hane.2

lemma fill_order_bid (b : OrderBook) (o : Order) (lp : Option ℚ) (h : o.bid_or_ask = .Bid) :
    b.fill_order o lp =
      ({ b with asks := (walkPrices b.asks o (askLimitPrices b.asks lp)).1 },
       (walkPrices b.asks o (askLimitPrices b.asks lp)).2.1,
       (walkPrices b.asks o (askLimitPrices b.asks lp)).2.2) := by
  unfold OrderBook.fill_order
  rw [h]

lemma fill_order_ask (b : OrderBook) (o : Order) (lp : Option ℚ) (h : o.bid_or_ask = .Ask) :
    b.fill_order o lp =
      ({ b with bids := (walkPrices b.bids o (bidLimitPrices b.bids lp)).1 },
       (walkPrices b.bids o (bidLimitPrices b.bids lp)).2.1,
       (walkPrices b.bids o (bidLimitPrices b.bids lp)).2.2) := by
  unfold OrderBook.fill_order
  rw [h]

lemma add_limit_order_bid (b : OrderBook) (price : ℚ) (o : Order) (h : o.bid_or_ask = .Bid) :
    b.add_limit_order price o = { b with bids := insertOrder b.bids price o } := by
  unfold OrderBook.add_limit_order
  rw [h]

lemma add_limit_order_ask (b : OrderBook) (price : ℚ) (o : Order) (h : o.bid_or_ask = .Ask) :
    b.add_limit_order price o = { b with asks := insertOrder b.asks price o } := by
  unfold OrderBook.add_limit_order
  rw [h]

lemma fill_order_price_maps (b : OrderBook) (o : Order) (lp : Option ℚ) :
    (b.fill_order o lp).1.asks.map Limit.price = b.asks.map Limit.price ∧
      (b.fill_order o lp).1.bids.map Limit.price = b.bids.map Limit.price := by
  cases hside : o.bid_or_ask with
  | Bid =>
    rw [fill_order_bid b o lp hside]
    exact ⟨walkPrices_price_map b.asks o _, rfl⟩
  | Ask =>
    rw [fill_order_ask b o lp hside]
    exact ⟨rfl, walkPrices_price_map b.bids o _⟩

/-- All reachable books have strictly positive resident order sizes. -/
lemma reachable_pos {b : OrderBook} (h : Reachable b) :
    (∀ l ∈ b.asks, ∀ x ∈ l.orders, 0 < x.size) ∧
      ∀ l ∈ b.bids, ∀ x ∈ l.orders, 0 < x.size := by
  induction h with
  | empty => exact ⟨by simp [OrderBook.new], by simp [OrderBook.new]⟩
  | @add b price o hb ho ih =>
    cases hside : o.bid_or_ask with
    | Bid =>
      rw [add_limit_order_bid b price o hside]
      exact ⟨ih.1, insertOrder_pos b.bids price o ho ih.2⟩
    | Ask =>
      rw [add_limit_order_ask b price o hside]
      exact ⟨insertOrder_pos b.asks price o ho ih.1, ih.2⟩
  | @fill b o lp hb ho ih =>
    cases hside : o.bid_or_ask with
    | Bid =>
      rw [fill_order_bid b o lp hside]
      exact ⟨(walkPrices_mono b.asks o _ ho ih.1).2.2, ih.2⟩
    | Ask =>
      rw [fill_order_ask b o lp hside]
      exact ⟨ih.1, (walkPrices_mono b.bids o _ ho ih.2).2.2⟩

/-- All reachable books have duplicate-free price keys on each side. -/
lemma reachable_nodup {b : OrderBook} (h : Reachable b) :
    (b.asks.map Limit.price).Nodup ∧ (b.bids.map Limit.price).Nodup := by
  induction h with
  | empty => exact ⟨by simp [OrderBook.new], by simp [OrderBook.new]⟩
  | @add b price o hb ho ih =>
    cases hside : o.bid_or_ask with
    | Bid =>
      rw [add_limit_order_bid b price o hside]
      exact ⟨ih.1, insertOrder_nodup b.bids price o ih.2⟩
    | Ask =>
      rw [add_limit_order_ask b price o hside]
      exact ⟨insertOrder_nodup b.asks price o ih.1, ih.2⟩
  | @fill b o lp hb ho ih =>
    obtain ⟨ha, hb'⟩ := fill_order_price_maps b o lp
    exact ⟨ha ▸ ih.1, hb' ▸ ih.2⟩

/-- Fills never cross a book: matching only drains resting queues. -/
lemma fill_order_uncrossed (b : OrderBook) (o : Order) (lp : Option ℚ)
    (h : b.crossed = false) : (b.fill_order o lp).1.crossed = false := by
  rw [crossed_false_iff] at h ⊢
  cases hside : o.bid_or_ask with
  | Bid =>
    rw [fill_order_bid b o lp hside]
    intro a ha hane l hl hlne
    obtain ⟨a0, ha0, hrel⟩ := forall₂_mem_right
      (walkPrices_pointwise b.asks o (askLimitPrices b.asks lp)) a ha
    rw [hrel.1]
    exact h a0 ha0 (hrel.2.2 hane) l hl hlne
  | Ask =>
    rw [fill_order_ask b o lp hside]
    intro a ha hane l hl hlne
    obtain ⟨l0, hl0, hrel⟩ := forall₂_mem_right
      (walkPrices_pointwise b.bids o (bidLimitPrices b.bids lp)) l hl
    rw [hrel.1]
    exact h a ha hane l0 hl0 (hrel.2.2 hlne)

/-- The marketable-limit discipline for a bid: fill first at limit price `P`,
and rest the remainder at `P` only if it is non-zero.  This never crosses an
uncrossed book: an unfilled remainder certifies that every acceptably priced
ask level was exhausted by the walk. -/
lemma marketable_bid_cycle (b : OrderBook) (o : Order) (P : ℚ)
    (hside : o.bid_or_ask = .Bid)
    (hN : (b.asks.map Limit.price).Nodup)
    (hcross : b.crossed = false)
    (hrem : (b.fill_limit_order o P).2.1.is_filled = false) :
    (((b.fill_limit_order o P).1).add_limit_order P
        ((b.fill_limit_order o P).2.1)).crossed = false := by
  have hside' : (b.fill_limit_order o P).2.1.bid_or_ask = .Bid := by
    rw [OrderBook.fill_limit_order, fill_order_bid b o (some P) hside]
    exact (walkPrices_id_side b.asks o _).2.trans hside
  rw [OrderBook.fill_limit_order] at hrem ⊢
  rw [fill_order_bid b o (some P) hside] at hrem ⊢
  rw [add_limit_order_bid _ P _ (by
    rw [OrderBook.fill_limit_order, fill_order_bid b o (some P) hside] at hside'
    exact hside')]
  rw [crossed_false_iff]
  intro a ha hane l hl hlne
  have haP : P < a.price := by
    by_contra hle
    have hle' : a.price ≤ P := not_lt.mp hle
    have hmem : a.price ∈ askLimitPrices b.asks (some P) := by
      rw [askLimitPrices_some_mem]
      refine ⟨?_, hle'⟩
      rw [← walkPrices_price_map b.asks o (askLimitPrices b.asks (some P))]
      exact List.mem_map_of_mem Limit.price ha
    exact hane (walkPrices_not_filled_empty b.asks o _ hN hrem a ha hmem)
  rcases insertOrder_mem_cases b.bids P _ l hl with hmem | hP
  · obtain ⟨a0, ha0, hrel⟩ := forall₂_mem_right
      (walkPrices_pointwise b.asks o (askLimitPrices b.asks (some P))) a ha
    rw [hrel.1]
    exact (crossed_false_iff b).mp hcross a0 ha0 (hrel.2.2 hane) l hmem hlne
  · rw [hP]
    exact haP

/-- The marketable-limit discipline for an ask, symmetrically. -/
lemma marketable_ask_cycle (b : OrderBook) (o : Order) (P : ℚ)
    (hside : o.bid_or_ask = .Ask)
    (hN : (b.bids.map Limit.price).Nodup)
    (hcross : b.crossed = false)
    (hrem : (b.fill_limit_order o P).2.1.is_filled = false) :
    (((b.fill_limit_order o P).1).add_limit_order P
        ((b.fill_limit_order o P).2.1)).crossed = false := by
  have hside' : (b.fill_limit_order o P).2.1.bid_or_ask = .Ask := by
    rw [OrderBook.fill_limit_order, fill_order_ask b o (some P) hside]
    exact (walkPrices_id_side b.bids o _).2.trans hside
  rw [OrderBook.fill_limit_order] at hrem ⊢
  rw [fill_order_ask b o (some P) hside] at hrem ⊢
  rw [add_limit_order_ask _ P _ (by
    rw [OrderBook.fill_limit_order, fill_order_ask b o (some P) hside] at hside'
    exact hside')]
  rw [crossed_false_iff]
  intro a ha hane l hl hlne
  have hlP : l.price < P := by
    by_contra hle
    have hle' : P ≤ l.price := not_lt.mp hle
    have hmem : l.price ∈ bidLimitPrices b.bids (some P) := by
      rw [bidLimitPrices_some_mem]
      refine ⟨?_, hle'⟩
      rw [← walkPrices_price_map b.bids o (bidLimitPrices b.bids (some P))]
      exact List.mem_map_of_mem Limit.price hl
    exact hlne (walkPrices_not_filled_empty b.bids o _ hN hrem l hl hmem)
  rcases insertOrder_mem_cases b.asks P _ a ha with hmem | hP
  · obtain ⟨l0, hl0, hrel⟩ := forall₂_mem_right
      (walkPrices_pointwise b.bids o (bidLimitPrices b.bids (some P))) l hl
    rw [hrel.1]
    exact (crossed_false_iff b).mp hcross a hmem hane l0 hl0 (hrel.2.2 hlne)
  · rw [hP]
    exact hlP

/-! ## Determinism: the walk does not depend on the hash-map iteration order -/

/-- Since level prices are totally ordered and the walk sorts them, the
candidate price list is independent of the side map's iteration order. -/
lemma askLimitPrices_perm {asks1 asks2 : List Limit} (h : asks1.Perm asks2) (lp : Option ℚ) :
    askLimitPrices asks1 lp = askLimitPrices asks2 lp := by
  cases lp with
  | none =>
    simp only [askLimitPrices]
    exact List.eq_of_perm_of_sorted
      ((List.perm_insertionSort _ _).trans ((h.map _).trans
        (List.perm_insertionSort _ _).symm))
      (List.sorted_insertionSort _ _) (List.sorted_insertionSort _ _)
  | some P =>
    simp only [askLimitPrices]
    exact List.eq_of_perm_of_sorted
      ((List.perm_insertionSort _ _).trans (((h.filter _).map _).trans
        (List.perm_insertionSort _ _).symm))
      (List.sorted_insertionSort _ _) (List.sorted_insertionSort _ _)

lemma bidLimitPrices_perm {bids1 bids2 : List Limit} (h : bids1.Perm bids2) (lp : Option ℚ) :
    bidLimitPrices bids1 lp = bidLimitPrices bids2 lp := by
  cases lp with
  | none =>
    simp only [bidLimitPrices]
    exact List.eq_of_perm_of_sorted
      ((List.perm_insertionSort _ _).trans ((h.map _).trans
        (List.perm_insertionSort _ _).symm))
      (List.sorted_insertionSort _ _) (List.sorted_insertionSort _ _)
  | some P =>
    simp only [bidLimitPrices]
    exact List.eq_of_perm_of_sorted
      ((List.perm_insertionSort _ _).trans (((h.filter _).map _).trans
        (List.perm_insertionSort _ _).symm))
      (List.sorted_insertionSort _ _) (List.sorted_insertionSort _ _)

/-- With duplicate-free price keys, filling at a key commutes with reordering
the side map: the updated order and executions agree and the resulting maps
are reorderings of one another. -/
lemma fillAt_perm {l1 l2 : List Limit} (h : l1.Perm l2) (p : ℚ)
    (hN : (l1.map Limit.price).Nodup) (o : Order) :
    (fillAt l1 p o).1.Perm (fillAt l2 p o).1 ∧
      (fillAt l1 p o).2.1 = (fillAt l2 p o).2.1 ∧
      (fillAt l1 p o).2.2 = (fillAt l2 p o).2.2 := by
  induction h generalizing o with
  | nil => exact ⟨List.Perm.refl _, rfl, rfl⟩
  | @cons x t1 t2 ht ih =>
    by_cases hx : x.price = p
    · rw [fillAt_cons_eq x t1 p o hx, fillAt_cons_eq x t2 p o hx]
      exact ⟨List.Perm.cons _ ht, rfl, rfl⟩
    · rw [fillAt_cons_ne x t1 p o hx, fillAt_cons_ne x t2 p o hx]
      have hN' : (t1.map Limit.price).Nodup := by
        simp only [List.map_cons, List.nodup_cons] at hN
        exact hN.2
      obtain ⟨hp, ho, he⟩ := ih hN' o
      rw [ho, he]
      exact ⟨List.Perm.cons _ hp, rfl, rfl⟩
  | @swap x y t =>
    have hxy : y.price ≠ x.price := by
      simp only [List.map_cons, List.nodup_cons, List.mem_cons] at hN
      exact fun hc => hN.1 (Or.inl hc)
    by_cases hy : y.price = p
    · have hx : ¬x.price = p := fun hc => hxy (hy.trans hc.symm)
      rw [fillAt_cons_eq y (x :: t) p o hy, fillAt_cons_ne x (y :: t) p o hx,
        fillAt_cons_eq y t p o hy]
      exact ⟨List.Perm.swap x ((y.fill_order o).1) t, rfl, rfl⟩
    · by_cases hx : x.price = p
      · rw [fillAt_cons_ne y (x :: t) p o hy, fillAt_cons_eq x t p o hx,
          fillAt_cons_eq x (y :: t) p o hx]
        exact ⟨List.Perm.swap ((x.fill_order o).1) y t, rfl, rfl⟩
      · rw [fillAt_cons_ne y (x :: t) p o hy, fillAt_cons_ne x t p o hx,
          fillAt_cons_ne x (y :: t) p o hx, fillAt_cons_ne y t p o hy]
        exact ⟨List.Perm.swap x y _, rfl, rfl⟩
  | @trans m1 m2 m3 h12 h23 ih12 ih23 =>
    have hN2 : (m2.map Limit.price).Nodup := ((h12.map Limit.price).nodup_iff).mp hN
    obtain ⟨a1, b1, c1⟩ := ih12 hN o
    obtain ⟨a2, b2, c2⟩ := ih23 hN2 o
    exact ⟨a1.trans a2, b1.trans b2, c1.trans c2⟩

lemma walkPrices_perm {l1 l2 : List Limit} (h : l1.Perm l2)
    (hN : (l1.map Limit.price).Nodup) (o : Order) (ps : List ℚ) :
    (walkPrices l1 o ps).1.Perm (walkPrices l2 o ps).1 ∧
      (walkPrices l1 o ps).2.1 = (walkPrices l2 o ps).2.1 ∧
      (walkPrices l1 o ps).2.2 = (walkPrices l2 o ps).2.2 := by
  induction ps generalizing l1 l2 o with
  | nil =>
    rw [walkPrices_nil, walkPrices_nil]
    exact ⟨h, rfl, rfl⟩
  | cons p ps ih =>
    obtain ⟨hp, ho, he⟩ := fillAt_perm h p hN o
    by_cases hf : (fillAt l1 p o).2.1.is_filled
    · rw [walkPrices_cons_stop l1 o p ps hf, walkPrices_cons_stop l2 o p ps (ho ▸ hf)]
      exact ⟨hp, ho, he⟩
    · rw [Bool.not_eq_true] at hf
      rw [walkPrices_cons_go l1 o p ps hf, walkPrices_cons_go l2 o p ps (ho ▸ hf)]
      have hN' : (((fillAt l1 p o).1).map Limit.price).Nodup := by
        rw [fillAt_price_map l1 p o]
        exact hN
      obtain ⟨a2, b2, c2⟩ := ih hp hN' (fillAt l1 p o).2.1
      dsimp only
      rw [← ho, ← he]
      exact ⟨a2, b2, by rw [c2]⟩

/-! ## Monotonicity of resident order sizes -/

/-- The survivors of one level loop are a suffix of the original queue,
pointwise with the same id, the same side, and a size no larger than before
(`limit_order.size -= shares` only ever subtracts a non-negative amount). -/
lemma fillLoop_residents_mono (price : ℚ) (os : List Order) (m : Order)
    (hm : 0 ≤ m.size) (hos : ∀ o ∈ os, 0 ≤ o.size) :
    ∃ k ≤ os.length,
      List.Forall₂ (fun x y : Order => y.id = x.id ∧ y.bid_or_ask = x.bid_or_ask ∧
        y.size ≤ x.size) (os.drop k) (fillLoop price os m).1 := by
  induction os generalizing m with
  | nil => exact ⟨0, le_refl _, by simp [fillLoop_nil]⟩
  | cons f rest ih =>
    have hf : 0 ≤ f.size := hos f (by simp)
    have hrest : ∀ o ∈ rest, 0 ≤ o.size := fun o ho => hos o (by simp [ho])
    have hs0 : 0 ≤ shares m f := shares_nonneg hm hf
    by_cases h1 : m.is_filled
    · refine ⟨0, Nat.zero_le _, ?_⟩
      rw [fillLoop_cons_filled price f rest m h1, List.drop_zero]
      exact List.forall₂_same.mpr fun x _ => ⟨rfl, rfl, le_refl _⟩
    · rw [Bool.not_eq_true] at h1
      by_cases h2 : ({ f with size := f.size - shares m f } : Order).is_filled
      · have hm' : 0 ≤ m.size - shares m f := by
          rw [shares_min]
          exact sub_nonneg.mpr (min_le_left _ _)
        obtain ⟨k, hk, hF⟩ :=
          ih { m with size := m.size - shares m f } (by simpa using hm') hrest
        refine ⟨k + 1, Nat.succ_le_succ hk, ?_⟩
        rw [fillLoop_cons_pop price f rest m h1 h2]
        simpa [List.drop_succ_cons] using hF
      · rw [Bool.not_eq_true] at h2
        refine ⟨0, Nat.zero_le _, ?_⟩
        rw [fillLoop_cons_last price f rest m h1 h2, List.drop_zero]
        refine List.Forall₂.cons ⟨rfl, rfl, ?_⟩
          (List.forall₂_same.mpr fun x _ => ⟨rfl, rfl, le_refl _⟩)
        simpa using sub_le_self f.size hs0

/-- Pointwise resident monotonicity of one keyed level fill: in every level
the surviving queue is a suffix of the prior queue whose orders' sizes have
not increased. -/
lemma fillAt_residents_mono (limits : List Limit) (p : ℚ) (o : Order) (ho : 0 ≤ o.size)
    (hres : ∀ l ∈ limits, ∀ x ∈ l.orders, 0 ≤ x.size) :
    List.Forall₂ (fun l l' : Limit => l'.price = l.price ∧
      ∃ k ≤ l.orders.length,
        List.Forall₂ (fun x y : Order => y.id = x.id ∧ y.bid_or_ask = x.bid_or_ask ∧
          y.size ≤ x.size) (l.orders.drop k) l'.orders) limits (fillAt limits p o).1 := by
  induction limits generalizing o with
  | nil => simp [fillAt_nil]
  | cons l ls ih =>
    by_cases hp : l.price = p
    · rw [fillAt_cons_eq l ls p o hp]
      refine List.Forall₂.cons ⟨rfl, ?_⟩
        (List.forall₂_same.mpr fun x _ => ⟨rfl, 0, Nat.zero_le _,
          List.forall₂_same.mpr fun y _ => ⟨rfl, rfl, le_refl _⟩⟩)
      obtain ⟨k, hk, hF⟩ := fillLoop_residents_mono l.price l.orders o ho (hres l (by simp))
      exact ⟨k, hk, by simpa [Limit.fill_order_eq] using hF⟩
    · rw [fillAt_cons_ne l ls p o hp]
      exact List.Forall₂.cons ⟨rfl, 0, Nat.zero_le _,
        List.forall₂_same.mpr fun y _ => ⟨rfl, rfl, le_refl _⟩⟩
        (ih o ho fun l' hl' => hres l' (by simp [hl']))

/-- Pointwise resident monotonicity of the whole walk: no resident order's
size ever increases across a fill. -/
lemma walkPrices_residents_mono (limits : List Limit) (o : Order) (ps : List ℚ)
    (ho : 0 ≤ o.size) (hres : ∀ l ∈ limits, ∀ x ∈ l.orders, 0 < x.size) :
    List.Forall₂ (fun l l' : Limit => l'.price = l.price ∧
      ∃ k ≤ l.orders.length,
        List.Forall₂ (fun x y : Order => y.id = x.id ∧ y.bid_or_ask = x.bid_or_ask ∧
          y.size ≤ x.size) (l.orders.drop k) l'.orders)
      limits (walkPrices limits o ps).1 := by
  induction ps generalizing limits o with
  | nil =>
    rw [walkPrices_nil]
    exact List.forall₂_same.mpr fun x _ => ⟨rfl, 0, Nat.zero_le _,
      List.forall₂_same.mpr fun y _ => ⟨rfl, rfl, le_refl _⟩⟩
  | cons p ps ih =>
    have hres' : ∀ l ∈ limits, ∀ x ∈ l.orders, 0 ≤ x.size :=
      fun l hl x hx => (hres l hl x hx).le
    by_cases h : (fillAt limits p o).2.1.is_filled
    · rw [walkPrices_cons_stop limits o p ps h]
      exact fillAt_residents_mono limits p o ho hres'
    · rw [Bool.not_eq_true] at h
      rw [walkPrices_cons_go limits o p ps h]
      obtain ⟨h1, h2, h3⟩ := fillAt_mono limits p o ho hres
      refine forall₂_compose (fillAt_residents_mono limits p o ho hres')
        (ih (fillAt limits p o).1 (fillAt limits p o).2.1 h2 h3) ?_
      rintro x y z ⟨hp1, k1, hk1, hq1⟩ ⟨hp2, k2, hk2, hq2⟩
      have hlen := hq1.length_eq
      rw [List.length_drop] at hlen
      have hd := List.forall₂_drop k2 hq1
      rw [List.drop_drop] at hd
      refine ⟨hp2.trans hp1, k1 + k2, by omega, ?_⟩
      refine forall₂_compose hd hq2 ?_
      rintro a b c ⟨i1, s1, z1⟩ ⟨i2, s2, z2⟩
      exact ⟨i2.trans i1, s2.trans s1, z2.trans z1⟩

/-- An add leaves every already-resting order untouched: either the side map
gains one fresh level at its end, or exactly one existing level gains the new
order at the back of its queue and every other level is unchanged. -/
lemma insertOrder_extends (ls : List Limit) (price : ℚ) (o : Order) :
    insertOrder ls price o = ls ++ [(Limit.new price).add_order o] ∨
      List.Forall₂ (fun l l' : Limit => l'.price = l.price ∧
        (l'.orders = l.orders ∨ l'.orders = l.orders ++ [o])) ls (insertOrder ls price o) := by
  induction ls with
  | nil =>
    left
    rfl
  | cons hd tl ih =>
    by_cases hp : hd.price = price
    · right
      rw [insertOrder, if_pos hp]
      exact List.Forall₂.cons ⟨rfl, Or.inr rfl⟩
        (List.forall₂_same.mpr fun x _ => ⟨rfl, Or.inl rfl⟩)
    · rcases ih with h | h
      · left
        rw [insertOrder, if_neg hp, h]
        rfl
      · right
        rw [insertOrder, if_neg hp]
        exact List.Forall₂.cons ⟨rfl, Or.inl rfl⟩ h

/-! ## The claims -/

/-- C1: For every order book and every incoming order with strictly positive
size, the fill path walks the opposing side's price levels in full price
priority — Ask levels ascending for an incoming Bid, Bid levels descending
for an incoming Ask, the candidate lists covering exactly the opposing
levels' prices — and halts as soon as the incoming order's remaining size
reaches zero, leaving all not-yet-walked levels untouched; in particular,
with asks resting at prices 100, 200, 300, 500 of size 10 each, a market bid
of size 10 fully consumes the 100-priced level and leaves the other levels
unchanged. -/
theorem fill_path_price_priority :
    (∀ (b : OrderBook) (lp : Option ℚ), (askLimitPrices b.asks lp).Sorted (· ≤ ·)) ∧
    (∀ (b : OrderBook) (lp : Option ℚ), (bidLimitPrices b.bids lp).Sorted (· ≥ ·)) ∧
    (∀ b : OrderBook, (askLimitPrices b.asks none).Perm (b.asks.map Limit.price)) ∧
    (∀ b : OrderBook, (bidLimitPrices b.bids none).Perm (b.bids.map Limit.price)) ∧
    (∀ (limits : List Limit) (o : Order) (ps : List ℚ),
      ∃ k ≤ ps.length, walkPrices limits o ps = walkPrices limits o (ps.take k) ∧
        (k < ps.length → (walkPrices limits o (ps.take k)).2.1.is_filled = true) ∧
        List.Forall₂ (fun l l' => l.price ∉ ps.take k → l' = l) limits
          (walkPrices limits o ps).1) ∧
    exampleAskBook.fill_market_order { id := 5, size := 10, bid_or_ask := .Bid } =
      ({ asks := [{ price := 500, orders := [{ id := 1, size := 10, bid_or_ask := .Ask }] },
                  { price := 100, orders := [] },
                  { price := 200, orders := [{ id := 3, size := 10, bid_or_ask := .Ask }] },
                  { price := 300, orders := [{ id := 4, size := 10, bid_or_ask := .Ask }] }],
         bids := [] },
       { id := 5, size := 0, bid_or_ask := .Bid },
       [{ id := 5, size := 10, bid_or_ask := .Bid, price := 100 },
        { id := 2, size := 10, bid_or_ask := .Ask, price := 100 }]) := by
  refine ⟨fun b lp => askLimitPrices_sorted b.asks lp,
    fun b lp => bidLimitPrices_sorted b.bids lp,
    fun b => askLimitPrices_none_perm b.asks,
    fun b => bidLimitPrices_none_perm b.bids, ?_, ?_⟩
  · intro limits o ps
    obtain ⟨k, hk, heq, hfil⟩ := walkPrices_take limits o ps
    refine ⟨k, hk, heq, hfil, ?_⟩
    rw [heq]
    exact List.Forall₂.imp (fun _ _ h => h.2.1)
      (walkPrices_pointwise limits o (ps.take k))
  · norm_num [OrderBook.fill_market_order, OrderBook.fill_order, walkPrices, fillAt,
      Limit.fill_order, fillLoop, shares, Order.is_filled, askLimitPrices,
      List.insertionSort, List.orderedInsert, exampleAskBook, OrderBook.add_limit_order,
      insertOrder, Limit.add_order, Limit.new, OrderBook.new, Execution.new]

theorem fill_path_price_priority_witness :
    (askLimitPrices exampleAskBook.asks none).Sorted (· ≤ ·) :=
  fill_path_price_priority.1 exampleAskBook none

/-- C2: fill_limit_order with limit price `P` matches only acceptably priced
opposing levels — Ask levels with price ≤ P for a Bid, Bid levels with
price ≥ P for an Ask; the candidate list contains exactly the acceptable
prices, and every level outside the range is left unmodified (as is the whole
same side of the book); in particular, against asks at 100, 200, 300, 500 of
size 10 each, a limit bid of size 30 at limit price 210 consumes the 100 and
200 levels, leaves the bid with remaining size 10, and never touches the 300
or 500 levels. -/
theorem fill_limit_price_boundary :
    (∀ (b : OrderBook) (P q : ℚ), q ∈ askLimitPrices b.asks (some P) ↔
        q ∈ b.asks.map Limit.price ∧ q ≤ P) ∧
    (∀ (b : OrderBook) (P q : ℚ), q ∈ bidLimitPrices b.bids (some P) ↔
        q ∈ b.bids.map Limit.price ∧ P ≤ q) ∧
    (∀ (b : OrderBook) (o : Order) (P : ℚ), o.bid_or_ask = .Bid →
        (b.fill_limit_order o P).1.bids = b.bids ∧
        List.Forall₂ (fun l l' => P < l.price → l' = l) b.asks
          (b.fill_limit_order o P).1.asks) ∧
    (∀ (b : OrderBook) (o : Order) (P : ℚ), o.bid_or_ask = .Ask →
        (b.fill_limit_order o P).1.asks = b.asks ∧
        List.Forall₂ (fun l l' => l.price < P → l' = l) b.bids
          (b.fill_limit_order o P).1.bids) ∧
    exampleAskBook.fill_limit_order { id := 5, size := 30, bid_or_ask := .Bid } 210 =
      ({ asks := [{ price := 500, orders := [{ id := 1, size := 10, bid_or_ask := .Ask }] },
                  { price := 100, orders := [] },
                  { price := 200, orders := [] },
                  { price := 300, orders := [{ id := 4, size := 10, bid_or_ask := .Ask }] }],
         bids := [] },
       { id := 5, size := 10, bid_or_ask := .Bid },
       [{ id := 5, size := 10, bid_or_ask := .Bid, price := 100 },
        { id := 2, size := 10, bid_or_ask := .Ask, price := 100 },
        { id := 5, size := 10, bid_or_ask := .Bid, price := 200 },
        { id := 3, size := 10, bid_or_ask := .Ask, price := 200 }]) := by
  refine ⟨fun b P q => askLimitPrices_some_mem b.asks P q,
    fun b P q => bidLimitPrices_some_mem b.bids P q, ?_, ?_, ?_⟩
  · intro b o P hside
    rw [OrderBook.fill_limit_order, fill_order_bid b o (some P) hside]
    refine ⟨rfl, ?_⟩
    refine List.Forall₂.imp ?_ (walkPrices_pointwise b.asks o (askLimitPrices b.asks (some P)))
    rintro l l' ⟨_, h2, _⟩ hPlt
    exact h2 fun hmem =>
      absurd ((askLimitPrices_some_mem b.asks P l.price).mp hmem).2 (not_le.mpr hPlt)
  · intro b o P hside
    rw [OrderBook.fill_limit_order, fill_order_ask b o (some P) hside]
    refine ⟨rfl, ?_⟩
    refine List.Forall₂.imp ?_ (walkPrices_pointwise b.bids o (bidLimitPrices b.bids (some P)))
    rintro l l' ⟨_, h2, _⟩ hPlt
    exact h2 fun hmem =>
      absurd ((bidLimitPrices_some_mem b.bids P l.price).mp hmem).2 (not_le.mpr hPlt)
  · norm_num [OrderBook.fill_limit_order, OrderBook.fill_order, walkPrices, fillAt,
      Limit.fill_order, fillLoop, shares, Order.is_filled, askLimitPrices,
      List.insertionSort, List.orderedInsert, exampleAskBook, OrderBook.add_limit_order,
      insertOrder, Limit.add_order, Limit.new, OrderBook.new, Execution.new]

theorem fill_limit_price_boundary_witness :
    (100 : ℚ) ∈ askLimitPrices exampleAskBook.asks (some 210) ↔
      (100 : ℚ) ∈ exampleAskBook.asks.map Limit.price ∧ (100 : ℚ) ≤ 210 :=
  fill_limit_price_boundary.1 exampleAskBook 210 100

/-- C3: A price level's match loop processes resident orders strictly from
oldest to newest: each step fills `shares = min(incoming.size,
resident.size)` at the level's price, decrements both sizes, removes the
front resident exactly when its size reaches zero (so the surviving queue is
a suffix of the original whose front alone may be decremented), and stops
when the incoming order's size reaches zero or the queue is empty; in
particular, two resident orders of size 100 each at one price, hit by an
aggressing order of size 199, leave the first-arrived order fully filled and
removed and the second with remaining size 1. -/
theorem level_fifo_time_priority :
    (∀ m f : Order, shares m f = min m.size f.size) ∧
    (∀ (price : ℚ) (os : List Order) (m : Order), ∃ k ≤ os.length,
      ((fillLoop price os m).1 = os.drop k ∨
        ∃ hd tl s, os.drop k = hd :: tl ∧
          (fillLoop price os m).1 = { hd with size := s } :: tl)) ∧
    (∀ (price : ℚ) (os : List Order) (m : Order),
      (fillLoop price os m).2.1.is_filled = false → (fillLoop price os m).1 = []) ∧
    Limit.fill_order
        { price := 10000, orders := [{ id := 1, size := 100, bid_or_ask := .Bid },
                                     { id := 2, size := 100, bid_or_ask := .Bid }] }
        { id := 3, size := 199, bid_or_ask := .Ask } =
      ({ price := 10000, orders := [{ id := 2, size := 1, bid_or_ask := .Bid }] },
       { id := 3, size := 0, bid_or_ask := .Ask },
       [{ id := 3, size := 100, bid_or_ask := .Ask, price := 10000 },
        { id := 1, size := 100, bid_or_ask := .Bid, price := 10000 },
        { id := 3, size := 99, bid_or_ask := .Ask, price := 10000 },
        { id := 2, size := 99, bid_or_ask := .Bid, price := 10000 }]) := by
  refine ⟨shares_min, fillLoop_queue_suffix, fillLoop_not_filled_empty, ?_⟩
  norm_num [Limit.fill_order, fillLoop, shares, Order.is_filled, Execution.new]

theorem level_fifo_time_priority_witness :
    shares { id := 3, size := 199, bid_or_ask := BidOrAsk.Ask }
        { id := 1, size := 100, bid_or_ask := BidOrAsk.Bid } =
      min (199 : ℚ) 100 :=
  level_fifo_time_priority.1 _ _

/-- C4 counterexample: `add_limit_order` is an unconditional resting add with
no matching, so two adds from the empty book — an ask level at 100 and then a
bid level at 200, both non-empty — leave the book crossed (the resting ask
price 100 is ≤ the resting bid price 200). -/
theorem add_limit_order_can_cross :
    ((OrderBook.new.add_limit_order 100 { id := 1, size := 10, bid_or_ask := .Ask
        }).add_limit_order 200 { id := 2, size := 5, bid_or_ask := .Bid }).crossed = true := by
  decide

/-- C4 (amended): the fill path never crosses an uncrossed book, and the
marketable-limit discipline — fill at limit price `P` first, then rest the
remainder at `P` only when it is non-zero — also preserves uncrossedness
(duplicate-free price keys are guaranteed on every reachable book);
`add_limit_order` taken alone, however, performs no matching and can cross
the book, as `add_limit_order_can_cross` shows. -/
theorem book_uncrossed_after_fill_and_cycle :
    (∀ (b : OrderBook) (o : Order) (lp : Option ℚ), b.crossed = false →
        (b.fill_order o lp).1.crossed = false) ∧
    (∀ (b : OrderBook) (o : Order) (P : ℚ), o.bid_or_ask = .Bid →
        (b.asks.map Limit.price).Nodup → b.crossed = false →
        (b.fill_limit_order o P).2.1.is_filled = false →
        (((b.fill_limit_order o P).1).add_limit_order P
            ((b.fill_limit_order o P).2.1)).crossed = false) ∧
    (∀ (b : OrderBook) (o : Order) (P : ℚ), o.bid_or_ask = .Ask →
        (b.bids.map Limit.price).Nodup → b.crossed = false →
        (b.fill_limit_order o P).2.1.is_filled = false →
        (((b.fill_limit_order o P).1).add_limit_order P
            ((b.fill_limit_order o P).2.1)).crossed = false) :=
  ⟨fill_order_uncrossed,
   fun b o P hside hN hcross hrem => marketable_bid_cycle b o P hside hN hcross hrem,
   fun b o P hside hN hcross hrem => marketable_ask_cycle b o P hside hN hcross hrem⟩

theorem book_uncrossed_after_fill_and_cycle_witness :
    ((exampleAskBook.fill_limit_order
          { id := 6, size := 30, bid_or_ask := BidOrAsk.Bid } 50).1.add_limit_order 50
        ((exampleAskBook.fill_limit_order
          { id := 6, size := 30, bid_or_ask := BidOrAsk.Bid } 50).2.1)).crossed = false :=
  book_uncrossed_after_fill_and_cycle.2.1 exampleAskBook
    { id := 6, size := 30, bid_or_ask := BidOrAsk.Bid } 50 rfl
    (by decide) (by decide) (by decide)

/-- C5: every fill call's executions are a flat list of pairs — one execution
attributed to the incoming order's id and one to a resident order's id, both
with the same filled quantity and the same level price — hence the total
filled quantity attributed to the incoming order equals the total attributed
across the touched resident orders (and equals the incoming order's size
decrease). -/
theorem fill_execution_conservation :
    ∀ (b : OrderBook) (o : Order) (lp : Option ℚ),
      ∃ pairs : List (Execution × Execution),
        (b.fill_order o lp).2.2 = (pairs.map fun q => [q.1, q.2]).flatten ∧
        (∀ q ∈ pairs, q.1.id = o.id ∧ q.1.bid_or_ask = o.bid_or_ask ∧
          q.1.size = q.2.size ∧ q.1.price = q.2.price ∧
          q.2.id ∈ residentIds b.asks ++ residentIds b.bids) ∧
        (pairs.map fun q => q.1.size).sum = (pairs.map fun q => q.2.size).sum ∧
        (pairs.map fun q => q.1.size).sum = o.size - (b.fill_order o lp).2.1.size := by
  intro b o lp
  cases hside : o.bid_or_ask with
  | Bid =>
    rw [fill_order_bid b o lp hside]
    obtain ⟨pairs, h1, h2, h3⟩ := walkPrices_pairs b.asks o (askLimitPrices b.asks lp)
    refine ⟨pairs, h1, ?_, ?_, h3⟩
    · intro q hq
      obtain ⟨a, b', c, d, e⟩ := h2 q hq
      exact ⟨a, b'.trans hside, c, d, List.mem_append.mpr (Or.inl e)⟩
    · rw [List.map_congr_left fun q hq => (h2 q hq).2.2.1]
  | Ask =>
    rw [fill_order_ask b o lp hside]
    obtain ⟨pairs, h1, h2, h3⟩ := walkPrices_pairs b.bids o (bidLimitPrices b.bids lp)
    refine ⟨pairs, h1, ?_, ?_, h3⟩
    · intro q hq
      obtain ⟨a, b', c, d, e⟩ := h2 q hq
      exact ⟨a, b'.trans hside, c, d, List.mem_append.mpr (Or.inr e)⟩
    · rw [List.map_congr_left fun q hq => (h2 q hq).2.2.1]

theorem fill_execution_conservation_witness :
    ∃ pairs : List (Execution × Execution),
      (exampleAskBook.fill_order { id := 5, size := 10, bid_or_ask := BidOrAsk.Bid }
          none).2.2 = (pairs.map fun q => [q.1, q.2]).flatten ∧
      (∀ q ∈ pairs, q.1.id = 5 ∧ q.1.bid_or_ask = BidOrAsk.Bid ∧
        q.1.size = q.2.size ∧ q.1.price = q.2.price ∧
        q.2.id ∈ residentIds exampleAskBook.asks ++ residentIds exampleAskBook.bids) ∧
      (pairs.map fun q => q.1.size).sum = (pairs.map fun q => q.2.size).sum ∧
      (pairs.map fun q => q.1.size).sum = 10 -
        (exampleAskBook.fill_order { id := 5, size := 10, bid_or_ask := BidOrAsk.Bid }
          none).2.1.size :=
  fill_execution_conservation exampleAskBook
    { id := 5, size := 10, bid_or_ask := BidOrAsk.Bid } none

/-- C6: on any reachable book every resident order's size is strictly
positive (an order that reaches size zero is evicted at once and so is never
resident nor matched again); a fill of an incoming order with non-negative
size never increases its size nor drives any size negative; under every fill,
each side map is transformed level by level, the surviving queue of each
level being a suffix of its prior queue whose orders keep their id and side
with sizes that never increase; an add leaves every already-resting order's
queue entry untouched; and an incoming order of size exactly zero produces no
executions. -/
theorem order_size_monotone :
    (∀ b : OrderBook, Reachable b →
      (∀ l ∈ b.asks, ∀ x ∈ l.orders, 0 < x.size) ∧
        ∀ l ∈ b.bids, ∀ x ∈ l.orders, 0 < x.size) ∧
    (∀ (b : OrderBook) (o : Order) (lp : Option ℚ), 0 ≤ o.size →
      (∀ l ∈ b.asks, ∀ x ∈ l.orders, 0 < x.size) →
      (∀ l ∈ b.bids, ∀ x ∈ l.orders, 0 < x.size) →
      (b.fill_order o lp).2.1.size ≤ o.size ∧ 0 ≤ (b.fill_order o lp).2.1.size ∧
        (∀ l ∈ (b.fill_order o lp).1.asks, ∀ x ∈ l.orders, 0 < x.size) ∧
        ∀ l ∈ (b.fill_order o lp).1.bids, ∀ x ∈ l.orders, 0 < x.size) ∧
    (∀ (b : OrderBook) (o : Order) (lp : Option ℚ), 0 ≤ o.size →
      (∀ l ∈ b.asks, ∀ x ∈ l.orders, 0 < x.size) →
      (∀ l ∈ b.bids, ∀ x ∈ l.orders, 0 < x.size) →
      List.Forall₂ (fun l l' : Limit => l'.price = l.price ∧
        ∃ k ≤ l.orders.length,
          List.Forall₂ (fun x y : Order => y.id = x.id ∧ y.bid_or_ask = x.bid_or_ask ∧
            y.size ≤ x.size) (l.orders.drop k) l'.orders)
        b.asks (b.fill_order o lp).1.asks ∧
      List.Forall₂ (fun l l' : Limit => l'.price = l.price ∧
        ∃ k ≤ l.orders.length,
          List.Forall₂ (fun x y : Order => y.id = x.id ∧ y.bid_or_ask = x.bid_or_ask ∧
            y.size ≤ x.size) (l.orders.drop k) l'.orders)
        b.bids (b.fill_order o lp).1.bids) ∧
    (∀ (ls : List Limit) (price : ℚ) (o : Order),
      insertOrder ls price o = ls ++ [(Limit.new price).add_order o] ∨
        List.Forall₂ (fun l l' : Limit => l'.price = l.price ∧
          (l'.orders = l.orders ∨ l'.orders = l.orders ++ [o])) ls
          (insertOrder ls price o)) ∧
    (∀ (b : OrderBook) (o : Order) (lp : Option ℚ), o.size = 0 →
      (b.fill_order o lp).2.2 = []) := by
  have hrefl : ∀ ls : List Limit,
      List.Forall₂ (fun l l' : Limit => l'.price = l.price ∧
        ∃ k ≤ l.orders.length,
          List.Forall₂ (fun x y : Order => y.id = x.id ∧ y.bid_or_ask = x.bid_or_ask ∧
            y.size ≤ x.size) (l.orders.drop k) l'.orders) ls ls :=
    fun ls => List.forall₂_same.mpr fun x _ => ⟨rfl, 0, Nat.zero_le _,
      List.forall₂_same.mpr fun y _ => ⟨rfl, rfl, le_refl _⟩⟩
  refine ⟨fun b h => reachable_pos h, ?_, ?_, insertOrder_extends, ?_⟩
  · intro b o lp ho hA hB
    cases hside : o.bid_or_ask with
    | Bid =>
      rw [fill_order_bid b o lp hside]
      obtain ⟨h1, h2, h3⟩ := walkPrices_mono b.asks o (askLimitPrices b.asks lp) ho hA
      exact ⟨h1, h2, h3, hB⟩
    | Ask =>
      rw [fill_order_ask b o lp hside]
      obtain ⟨h1, h2, h3⟩ := walkPrices_mono b.bids o (bidLimitPrices b.bids lp) ho hB
      exact ⟨h1, h2, hA, h3⟩
  · intro b o lp ho hA hB
    cases hside : o.bid_or_ask with
    | Bid =>
      rw [fill_order_bid b o lp hside]
      exact ⟨walkPrices_residents_mono b.asks o _ ho hA, hrefl b.bids⟩
    | Ask =>
      rw [fill_order_ask b o lp hside]
      exact ⟨hrefl b.asks, walkPrices_residents_mono b.bids o _ ho hB⟩
  · intro b o lp ho
    have hfil : o.is_filled = true := by simp [Order.is_filled, ho]
    cases hside : o.bid_or_ask with
    | Bid =>
      rw [fill_order_bid b o lp hside, walkPrices_filled b.asks o _ hfil]
    | Ask =>
      rw [fill_order_ask b o lp hside, walkPrices_filled b.bids o _ hfil]

theorem order_size_monotone_witness :
    ((∀ l ∈ exampleAskBook.asks, ∀ x ∈ l.orders, 0 < x.size) ∧
      ∀ l ∈ exampleAskBook.bids, ∀ x ∈ l.orders, 0 < x.size) ∧
    List.Forall₂ (fun l l' : Limit => l'.price = l.price ∧
        ∃ k ≤ l.orders.length,
          List.Forall₂ (fun x y : Order => y.id = x.id ∧ y.bid_or_ask = x.bid_or_ask ∧
            y.size ≤ x.size) (l.orders.drop k) l'.orders)
      exampleAskBook.asks
      (exampleAskBook.fill_order { id := 5, size := 10, bid_or_ask := BidOrAsk.Bid }
        none).1.asks :=
  ⟨order_size_monotone.1 exampleAskBook
    (Reachable.add (Reachable.add (Reachable.add (Reachable.add Reachable.empty
      (by decide)) (by decide)) (by decide)) (by decide)),
   (order_size_monotone.2.2.1 exampleAskBook
      { id := 5, size := 10, bid_or_ask := BidOrAsk.Bid } none
      (by decide) (by decide) (by decide)).1⟩

/-- C7: invoking `fill_market_order` or `fill_limit_order` with an order
whose size is exactly zero returns no executions and leaves the book and the
order completely unchanged. -/
theorem fill_zero_size_noop :
    (∀ (b : OrderBook) (o : Order), o.size = 0 → b.fill_market_order o = (b, o, [])) ∧
    ∀ (b : OrderBook) (o : Order) (P : ℚ), o.size = 0 →
      b.fill_limit_order o P = (b, o, []) := by
  have key : ∀ (b : OrderBook) (o : Order) (lp : Option ℚ), o.size = 0 →
      b.fill_order o lp = (b, o, []) := by
    intro b o lp ho
    have hfil : o.is_filled = true := by simp [Order.is_filled, ho]
    cases hside : o.bid_or_ask with
    | Bid => rw [fill_order_bid b o lp hside, walkPrices_filled b.asks o _ hfil]
    | Ask => rw [fill_order_ask b o lp hside, walkPrices_filled b.bids o _ hfil]
  exact ⟨fun b o ho => key b o none ho, fun b o P ho => key b o (some P) ho⟩

theorem fill_zero_size_noop_witness :
    exampleAskBook.fill_market_order { id := 7, size := 0, bid_or_ask := BidOrAsk.Bid } =
      (exampleAskBook, { id := 7, size := 0, bid_or_ask := BidOrAsk.Bid }, []) :=
  fill_zero_size_noop.1 exampleAskBook { id := 7, size := 0, bid_or_ask := BidOrAsk.Bid } rfl

/-- C8: the fill path is a total, bounded computation: every loop iteration
that does not consume a resident order fills the incoming order (so each
level's loop ends after at most one execution pair per consumed resident
order plus one final pair), and the total number of executions of a fill is
at most twice the number of opposing resident orders plus twice the number of
opposing levels. -/
theorem fill_terminates_bounded :
    (∀ m f : Order,
      ({ f with size := f.size - shares m f } : Order).is_filled = false →
      ({ m with size := m.size - shares m f } : Order).is_filled = true) ∧
    (∀ (b : OrderBook) (o : Order) (lp : Option ℚ), o.bid_or_ask = .Bid →
      (b.fill_order o lp).2.2.length ≤ 2 * totalOrders b.asks + 2 * b.asks.length) ∧
    ∀ (b : OrderBook) (o : Order) (lp : Option ℚ), o.bid_or_ask = .Ask →
      (b.fill_order o lp).2.2.length ≤ 2 * totalOrders b.bids + 2 * b.bids.length := by
  refine ⟨fillLoop_progress, ?_, ?_⟩
  · intro b o lp hside
    rw [fill_order_bid b o lp hside]
    have h1 := walkPrices_execs_length b.asks o (askLimitPrices b.asks lp)
    have h2 := askLimitPrices_length b.asks lp
    dsimp only
    omega
  · intro b o lp hside
    rw [fill_order_ask b o lp hside]
    have h1 := walkPrices_execs_length b.bids o (bidLimitPrices b.bids lp)
    have h2 := bidLimitPrices_length b.bids lp
    dsimp only
    omega

theorem fill_terminates_bounded_witness :
    (exampleAskBook.fill_order { id := 5, size := 10, bid_or_ask := BidOrAsk.Bid }
        none).2.2.length ≤
      2 * totalOrders exampleAskBook.asks + 2 * exampleAskBook.asks.length :=
  fill_terminates_bounded.2.1 exampleAskBook
    { id := 5, size := 10, bid_or_ask := BidOrAsk.Bid } none rfl

/-- C9: no operation removes a price level: the fill path preserves each side
map's key list exactly (even when it empties a level's queue), an add
preserves every existing key, and a level — empty or not — is always
re-examined by later fills, since its price always appears among the
candidate prices of an unconstrained walk of its side. -/
theorem price_levels_never_removed :
    (∀ (b : OrderBook) (o : Order) (lp : Option ℚ),
      (b.fill_order o lp).1.asks.map Limit.price = b.asks.map Limit.price ∧
      (b.fill_order o lp).1.bids.map Limit.price = b.bids.map Limit.price) ∧
    (∀ (b : OrderBook) (price : ℚ) (o : Order) (q : ℚ),
      (q ∈ b.asks.map Limit.price →
        q ∈ (b.add_limit_order price o).asks.map Limit.price) ∧
      (q ∈ b.bids.map Limit.price →
        q ∈ (b.add_limit_order price o).bids.map Limit.price)) ∧
    (∀ (asks : List Limit) (l : Limit), l ∈ asks → l.price ∈ askLimitPrices asks none) ∧
    ∀ (bids : List Limit) (l : Limit), l ∈ bids → l.price ∈ bidLimitPrices bids none := by
  refine ⟨fill_order_price_maps, ?_, askLimitPrices_mem_of_mem, ?_⟩
  · intro b price o q
    have key : ∀ ls : List Limit, q ∈ ls.map Limit.price →
        q ∈ (insertOrder ls price o).map Limit.price := by
      intro ls hq
      rw [insertOrder_price_map]
      by_cases hmem : price ∈ ls.map Limit.price
      · rw [if_pos hmem]
        exact hq
      · rw [if_neg hmem]
        exact List.mem_append.mpr (Or.inl hq)
    cases hside : o.bid_or_ask with
    | Bid =>
      rw [add_limit_order_bid b price o hside]
      exact ⟨fun hq => hq, key b.bids⟩
    | Ask =>
      rw [add_limit_order_ask b price o hside]
      exact ⟨key b.asks, fun hq => hq⟩
  · intro bids l hl
    exact (bidLimitPrices_none_perm bids).mem_iff.mpr (List.mem_map_of_mem Limit.price hl)

theorem price_levels_never_removed_witness :
    (100 : ℚ) ∈ askLimitPrices exampleAskBook.asks none :=
  price_levels_never_removed.2.2.1 exampleAskBook.asks
    { price := 100, orders := [{ id := 2, size := 10, bid_or_ask := BidOrAsk.Ask }] }
    (by decide)

/-- C10: the fill path is deterministic in the book's contents despite the
unordered side maps: on two books whose side maps are reorderings of one
another (with duplicate-free price keys), any fill returns the same updated
order and the same execution sequence, and leaves side maps that are again
reorderings of one another — because the walked candidate levels are always
explicitly sorted by their unique price keys. -/
theorem fill_order_deterministic :
    ∀ (b1 b2 : OrderBook) (o : Order) (lp : Option ℚ),
      b1.asks.Perm b2.asks → b1.bids.Perm b2.bids →
      (b1.asks.map Limit.price).Nodup → (b1.bids.map Limit.price).Nodup →
      (b1.fill_order o lp).2.1 = (b2.fill_order o lp).2.1 ∧
      (b1.fill_order o lp).2.2 = (b2.fill_order o lp).2.2 ∧
      (b1.fill_order o lp).1.asks.Perm (b2.fill_order o lp).1.asks ∧
      (b1.fill_order o lp).1.bids.Perm (b2.fill_order o lp).1.bids := by
  intro b1 b2 o lp hA hB hNA hNB
  cases hside : o.bid_or_ask with
  | Bid =>
    rw [fill_order_bid b1 o lp hside, fill_order_bid b2 o lp hside]
    have hcand : askLimitPrices b1.asks lp = askLimitPrices b2.asks lp :=
      askLimitPrices_perm hA lp
    obtain ⟨a, b, c⟩ := walkPrices_perm hA hNA o (askLimitPrices b1.asks lp)
    dsimp only
    rw [← hcand]
    exact ⟨b, c, a, hB⟩
  | Ask =>
    rw [fill_order_ask b1 o lp hside, fill_order_ask b2 o lp hside]
    have hcand : bidLimitPrices b1.bids lp = bidLimitPrices b2.bids lp :=
      bidLimitPrices_perm hB lp
    obtain ⟨a, b, c⟩ := walkPrices_perm hB hNB o (bidLimitPrices b1.bids lp)
    dsimp only
    rw [← hcand]
    exact ⟨b, c, hA, a⟩

theorem fill_order_deterministic_witness :
    (({ asks := [{ price := 100, orders := [{ id := 1, size := 10, bid_or_ask := .Ask }] },
                 { price := 200, orders := [{ id := 2, size := 10, bid_or_ask := .Ask }] }],
        bids := [] } : OrderBook).fill_order
          { id := 3, size := 5, bid_or_ask := BidOrAsk.Bid } none).2.1 =
      (({ asks := [{ price := 200, orders := [{ id := 2, size := 10, bid_or_ask := .Ask }] },
                   { price := 100, orders := [{ id := 1, size := 10, bid_or_ask := .Ask }] }],
          bids := [] } : OrderBook).fill_order
            { id := 3, size := 5, bid_or_ask := BidOrAsk.Bid } none).2.1 :=
  (fill_order_deterministic
    { asks := [{ price := 100, orders := [{ id := 1, size := 10, bid_or_ask := .Ask }] },
               { price := 200, orders := [{ id := 2, size := 10, bid_or_ask := .Ask }] }],
      bids := [] }
    { asks := [{ price := 200, orders := [{ id := 2, size := 10, bid_or_ask := .Ask }] },
               { price := 100, orders := [{ id := 1, size := 10, bid_or_ask := .Ask }] }],
      bids := [] }
    { id := 3, size := 5, bid_or_ask := BidOrAsk.Bid } none
    (List.Perm.swap _ _ _) (List.Perm.refl _) (by decide) (by decide)).1

end TradingEngine
